import Mathlib

/-!
Shallow embedding of the wormvision well-position-controller image operator
library (operators_basic.c and the WBFE_evaluate pipeline of the Python C
extension), together with proofs settling the frozen claims about it.

Machine integers are modelled as `Nat`/`Int`, with an explicit `% 2^w`
wherever the C width can overflow on the inputs a claim quantifies over
(`uint16_t` histogram bins, `uint16_t` blob-info fields, `uint8_t` pixels,
`uint32_t` packed words).  Fallible or possibly non-terminating C code
(unsigned division by zero, unbounded fixed-point loops) is modelled with
`Option`, `none` meaning the C program does not produce its ordinary result
(it traps or has not terminated within the given fuel).
-/

set_option maxRecDepth 4000

/-- `eConnected` from operators.h: 4- or 8-connectivity. -/
inductive eConnected where
  | FOUR
  | EIGHT
deriving DecidableEq, Repr

/-- `eBrightness` from operators.h: `BRIGHT = 0`, `DARK = 1`. -/
inductive eBrightness where
  | BRIGHT
  | DARK
deriving DecidableEq, Repr

/-- Numeric value of the `eBrightness` enum constant. -/
def eBrightness.toNat : eBrightness → Nat
  | .BRIGHT => 0
  | .DARK => 1

/-- `eImageView` from operators.h (semantic tag only). -/
inductive eImageView where
  | CLIP
  | STRETCH
  | BINARY
  | LABELED
deriving DecidableEq, Repr

/-- `image_t` for `IMGTYPE_BASIC`: row-major 8-bit samples.  The C struct
stores `cols`, `rows`, a view tag and a flat `uint8_t` buffer; the buffer is
modelled as a `List Nat` (each sample `< 256` for well-formed images). -/
structure image_t where
  cols : Nat
  rows : Nat
  view : eImageView
  data : List Nat
deriving DecidableEq, Repr

/-- The `rows*cols` samples an operator actually scans (`while(i-- > 0)` with
`i = src->rows * src->cols` starting at `src->data`). -/
def image_t.pix (img : image_t) : List Nat :=
  img.data.take (img.rows * img.cols)

/-- Well-formed basic image: the buffer holds exactly `rows*cols` samples,
each fitting in a `uint8_t`. -/
def image_t.WF (img : image_t) : Prop :=
  img.data.length = img.rows * img.cols ∧ ∀ v ∈ img.data, v < 256

instance (img : image_t) : Decidable img.WF := by
  unfold image_t.WF; infer_instance

/-- `histogram_basic` on a raw sample list: 256 `uint16_t` bins, one
increment per sample (`*(hist + *s++) += 1`), hence each bin counts
modulo `2^16`.  The bin array is modelled as a function. -/
def histList (l : List Nat) : Nat → Nat :=
  l.foldl (fun h v => Function.update h v ((h v + 1) % 65536)) (fun _ => 0)

/-- `histogram_basic( const image_t *img, uint16_t *hist )`. -/
def histogram_basic (img : image_t) : Nat → Nat :=
  histList img.pix

/-- The single min/max scan shared by `threshold2Means_basic` and the
contrast-stretch operators: `min` starts at 255, `max` at 0, each sample
updates both registers. -/
def minMaxScan (l : List Nat) : Nat × Nat :=
  l.foldl (fun mm v =>
    (if v < mm.1 then v else mm.1, if v > mm.2 then v else mm.2)) (255, 0)

/-- `threshold_basic(src, dst, low, high)`: each of the `rows*cols` samples
becomes 1 if `low <= value <= high` else 0, and `dst->view = IMGVIEW_BINARY`.
(The C writes through `dst` in lockstep with reading `src`, so with the
standard `len = rows*cols` buffers the destination is exactly this image.) -/
def threshold_basic (src : image_t) (low high : Nat) : image_t :=
  { cols := src.cols, rows := src.rows, view := .BINARY
    data := src.pix.map (fun v => if low ≤ v ∧ v ≤ high then 1 else 0) }

/-- One evaluation of the two-means partition loop of
`threshold2Means_basic`: `i` runs 255 down to 0; bins with `i > T` feed the
`right` accumulators, bins with `i < T` feed `left`, the bin `i = T` feeds
neither.  Returns `(right, right_count, left, left_count)`. -/
def twoMeansSums (hist : Nat → Nat) (T : Nat) : Nat × Nat × Nat × Nat :=
  ((List.range 256).reverse).foldl
    (fun acc i =>
      if i > T then (acc.1 + hist i * i, acc.2.1 + hist i, acc.2.2.1, acc.2.2.2)
      else if i < T then (acc.1, acc.2.1, acc.2.2.1 + hist i * i, acc.2.2.2 + hist i)
      else acc)
    (0, 0, 0, 0)

/-- One iteration of the `while(1)` loop body of `threshold2Means_basic`:
`right /= right_count; left /= left_count; new_T = (right + left) / 2`.
The two divisions are unsigned divisions by a count that the C never checks:
a zero count is an integer division by zero, modelled as `none`. -/
def twoMeansStep (hist : Nat → Nat) (T : Nat) : Option Nat :=
  let s := twoMeansSums hist T
  if s.2.1 = 0 ∨ s.2.2.2 = 0 then none
  else some ((s.1 / s.2.1 + s.2.2.1 / s.2.2.2) / 2)

/-- The fixed-point iteration on `T` (`if(new_T != T) { ...; continue }
else break`), bounded by fuel since the C loop is unbounded. -/
def twoMeansIter (hist : Nat → Nat) : Nat → Nat → Option Nat
  | 0, _ => none
  | fuel + 1, T =>
    match twoMeansStep hist T with
    | none => none
    | some T' => if T' = T then some T else twoMeansIter hist fuel T'

/-- The initial threshold of `threshold2Means_basic`:
`basic_pixel_t T = (max - min) / 2` with the subtraction and division done in
`int` (truncating) and the result converted to `uint8_t`. -/
def twoMeansInitT (l : List Nat) : Nat :=
  let mm := minMaxScan l
  ((((mm.2 : Int) - (mm.1 : Int)).tdiv 2).emod 256).toNat

/-- Final binarization shared by the statistical thresholds: samples
`>= T` become `1 - brightness`, the rest `brightness`, view `BINARY`. -/
def binarizeAt (src : image_t) (T : Nat) (brightness : eBrightness) : image_t :=
  { cols := src.cols, rows := src.rows, view := .BINARY
    data := src.pix.map (fun v =>
      if T ≤ v then 1 - brightness.toNat else brightness.toNat) }

/-- `threshold2Means_basic(src, dst, brightness)`.  `none` models the C
either dividing by zero in an iteration (empty partition) or not having
reached the fixed point within `fuel` iterations. -/
def threshold2Means_basic (fuel : Nat) (src : image_t)
    (brightness : eBrightness) : Option image_t :=
  (twoMeansIter (histogram_basic src) fuel (twoMeansInitT src.pix)).map
    (fun T => binarizeAt src T brightness)

/-!
Spec-side models for the two-means refinement claim.  These two definitions
follow the specification's words, not the C source; they exist only to be
compared against `threshold2Means_basic`.
-/

/-- Specification-worded two-means step with the partition written exactly as
in the spec: `{values ≤ T}` and `{values > T}`, each partition's (integer)
mean recomputed from the histogram, the new `T` the average of the two
means.  `none` when a partition is empty (its mean is undefined). -/
def twoMeansStepSpecLe (hist : Nat → Nat) (T : Nat) : Option Nat :=
  let hi := (List.range 256).filter (fun i => T < i)
  let lo := (List.range 256).filter (fun i => i ≤ T)
  let hiCount := (hi.map hist).sum
  let loCount := (lo.map hist).sum
  if hiCount = 0 ∨ loCount = 0 then none
  else some (((hi.map (fun i => hist i * i)).sum / hiCount
      + (lo.map (fun i => hist i * i)).sum / loCount) / 2)

/-- Same as `twoMeansStepSpecLe` but with the partition `{values < T}` and
`{values > T}`: samples equal to the running threshold belong to neither
partition.  This is the amended reading forced by the code. -/
def twoMeansStepSpecLt (hist : Nat → Nat) (T : Nat) : Option Nat :=
  let hi := (List.range 256).filter (fun i => T < i)
  let lo := (List.range 256).filter (fun i => i < T)
  let hiCount := (hi.map hist).sum
  let loCount := (lo.map hist).sum
  if hiCount = 0 ∨ loCount = 0 then none
  else some (((hi.map (fun i => hist i * i)).sum / hiCount
      + (lo.map (fun i => hist i * i)).sum / loCount) / 2)

/-- Spec-worded fixed-point iteration (identical loop shape, parameterized
by the step). -/
def twoMeansIterSpec (step : (Nat → Nat) → Nat → Option Nat)
    (hist : Nat → Nat) : Nat → Nat → Option Nat
  | 0, _ => none
  | fuel + 1, T =>
    match step hist T with
    | none => none
    | some T' => if T' = T then some T else twoMeansIterSpec step hist fuel T'

/-- Spec-worded two-means with the claim's `{≤ T}`/`{> T}` partition:
`T` initialized to `(max - min) / 2` of the sample range, iterated to a
fixed point, then samples `≥ T` mapped to `1 - brightness`, others to
`brightness`. -/
def threshold2MeansSpecLe (fuel : Nat) (src : image_t)
    (brightness : eBrightness) : Option image_t :=
  let mn := src.pix.foldl Nat.min 255
  let mx := src.pix.foldl Nat.max 0
  (twoMeansIterSpec twoMeansStepSpecLe (histList src.pix) fuel ((mx - mn) / 2)).map
    (fun T => binarizeAt src T brightness)

/-- Spec-worded two-means amended to the `{< T}`/`{> T}` partition. -/
def threshold2MeansSpecLt (fuel : Nat) (src : image_t)
    (brightness : eBrightness) : Option image_t :=
  let mn := src.pix.foldl Nat.min 255
  let mx := src.pix.foldl Nat.max 0
  (twoMeansIterSpec twoMeansStepSpecLt (histList src.pix) fuel ((mx - mn) / 2)).map
    (fun T => binarizeAt src T brightness)

/-!
`thresholdOtsu_basic`.  The C computes the partition means and the
between-class variance in `float`; they are modelled as exact rationals.
On the concrete inputs used below every intermediate value is a small
integer that `float` represents exactly, so every comparison in the model
agrees with the IEEE single-precision run of the C code.
-/

/-- The fold state of the Otsu candidate-threshold loop. -/
structure OtsuState where
  n_object : Nat
  sum_object : Nat
  max_BCV : ℚ
  best_threshold : Nat
deriving DecidableEq, Repr

/-- The between-class variance of `thresholdOtsu_basic` for given object
count and sum: each empty partition's mean guarded to 0, and the `uint32_t`
product `N_back * N_object` reduced mod `2^32`:
`BCV = N_back * N_object * (mean_back - mean_object)^2`. -/
def otsuBCV (N sum n_object sum_object : Nat) : ℚ :=
  let mean_object : ℚ := if n_object = 0 then 0 else (sum_object : ℚ) / n_object
  let n_back := N - n_object
  let sum_back := sum - sum_object
  let mean_back : ℚ := if n_back = 0 then 0 else (sum_back : ℚ) / n_back
  ((n_back * n_object) % 4294967296 : Nat)
      * ((mean_back - mean_object) * (mean_back - mean_object))

/-- The body of the Otsu loop for candidate threshold `b` (the C iterates
`i = 255 .. 0` with `b = 255 - i`, walking the histogram upward):
accumulate object count/sum (samples `≤ b`), take the complementary
background statistics, and keep the candidate maximizing the between-class
variance. -/
def otsuStepAt (hist : Nat → Nat) (N sum : Nat) (st : OtsuState) (b : Nat) :
    OtsuState :=
  let n_object := st.n_object + hist b
  let sum_object := st.sum_object + hist b * b
  let BCV : ℚ := otsuBCV N sum n_object sum_object
  if BCV > st.max_BCV then
    { n_object := n_object, sum_object := sum_object
      max_BCV := BCV, best_threshold := b }
  else
    { n_object := n_object, sum_object := sum_object
      max_BCV := st.max_BCV, best_threshold := st.best_threshold }

/-- The threshold selected by `thresholdOtsu_basic`: total pixel count
`N = rows*cols`, total sum from the histogram, then the candidate scan. -/
def otsuThreshold (src : image_t) : Nat :=
  let hist := histogram_basic src
  let N := src.rows * src.cols
  let sum := (((List.range 256).reverse).map (fun i => hist i * i)).sum
  ((List.range 256).foldl (otsuStepAt hist N sum)
    { n_object := 0, sum_object := 0, max_BCV := 0, best_threshold := 0 }).best_threshold

/-- `thresholdOtsu_basic(src, dst, brightness)`: binarize at the
best-variance candidate, samples `>= best_threshold` mapped to
`1 - brightness`. -/
def thresholdOtsu_basic (src : image_t) (brightness : eBrightness) : image_t :=
  binarizeAt src (otsuThreshold src) brightness

/-!
`invert_basic` and `gamma_basic` process the buffer through a `uint32_t`
pointer, four 8-bit samples per loop iteration, for `cols*rows / 4`
iterations.  Each output word is assembled with shifts and bitwise or and
stored little-endian (the Raspberry Pi target), so byte `j` of group `k`
lands at sample index `4*k + j`.  Samples past `4 * (cols*rows / 4)` are
never written and keep the destination buffer's previous contents.
-/

/-- The `uint32_t` value of `(1 - v) << 8*j` as the C computes it: the
subtraction in `int` (negative for `v > 1`), the shift arithmetic, the
result converted to `uint32_t` modulo `2^32`. -/
def invertLane (j v : Nat) : Nat :=
  ((((1 : Int) - (v : Int)) * 2 ^ (8 * j)).emod 4294967296).toNat

/-- The packed word `result` of one `invert_basic` iteration:
`result = 1 - s0; result |= (1 - s1) << 8; ...`. -/
def invertWord (v0 v1 v2 v3 : Nat) : Nat :=
  ((invertLane 0 v0 ||| invertLane 1 v1) ||| invertLane 2 v2)
    ||| invertLane 3 v3

/-- Byte `j` of a stored little-endian `uint32_t` word. -/
def wordByte (w j : Nat) : Nat :=
  w / 2 ^ (8 * j) % 256

/-- `invert_basic(src, dst)`: `dst->view = IMGVIEW_BINARY`; the first
`4 * (cols*rows / 4)` samples are rewritten word-wise, the rest of `dst`'s
buffer is untouched. -/
def invert_basic (src dst : image_t) : image_t :=
  let n := src.cols * src.rows
  let groups := n / 4
  let s := fun p => src.data.getD p 0
  let written := (List.range (4 * groups)).map (fun p =>
    wordByte (invertWord (s (4 * (p / 4))) (s (4 * (p / 4) + 1))
      (s (4 * (p / 4) + 2)) (s (4 * (p / 4) + 3))) (p % 4))
  { dst with view := .BINARY, data := written ++ dst.data.drop (4 * groups) }

/-- The packed word of one `gamma_basic` iteration, for a given lookup
table: `result = LUT[s0] | LUT[s1] << 8 | LUT[s2] << 16 | LUT[s3] << 24`
(all operands non-negative). -/
def gammaWord (LUT : Nat → Nat) (v0 v1 v2 v3 : Nat) : Nat :=
  ((LUT v0 ||| LUT v1 <<< 8) ||| LUT v2 <<< 16) ||| LUT v3 <<< 24

/-- `gamma_basic(src, dst, c, g)` with its lookup table abstracted: the C
builds `LUT[i] = clamp((int)(powf(i/255.0, g) * c * 255 + 0.5), 0, 255)`
with `float` arithmetic, which the claims never inspect beyond the clamp
to `[0,255]`; the table is therefore a parameter here.  The word-wise
write pattern is the same as `invert_basic`'s. -/
def gamma_basic (LUT : Nat → Nat) (src dst : image_t) : image_t :=
  let n := src.cols * src.rows
  let groups := n / 4
  let s := fun p => src.data.getD p 0
  let written := (List.range (4 * groups)).map (fun p =>
    wordByte (gammaWord LUT (s (4 * (p / 4))) (s (4 * (p / 4) + 1))
      (s (4 * (p / 4) + 2)) (s (4 * (p / 4) + 3))) (p % 4))
  { dst with data := written ++ dst.data.drop (4 * groups) }

/-!
`neighbourCount_basic` and the analysis operators.
-/

/-- The neighbour probe order of `neighbourCount_basic` as `(dr, dc)`
offsets: `(r-1,c)`, `(r,c-1)`, `(r+1,c)`, `(r,c+1)`, then for `EIGHT` the
four diagonals `(r-1,c-1)`, `(r-1,c+1)`, `(r+1,c-1)`, `(r+1,c+1)`. -/
def offsets : eConnected → List (Int × Int)
  | .FOUR => [(-1, 0), (0, -1), (1, 0), (0, 1)]
  | .EIGHT => [(-1, 0), (0, -1), (1, 0), (0, 1), (-1, -1), (-1, 1), (1, -1), (1, 1)]

/-- `neighbourCount_basic(img, c, r, pixel, connected)`: the number of
offsets whose target lies inside the image and holds `pixel`.  (The C
checks only the bound that the offset can violate; called with
`r < rows`, `c < cols` as all call sites do, the two are the same.) -/
def neighbourCount_basic (data : List Nat) (cols rows : Nat)
    (c r : Nat) (pixel : Nat) (conn : eConnected) : Nat :=
  (offsets conn).countP (fun d =>
    decide (0 ≤ (r : Int) + d.1 ∧ (r : Int) + d.1 < (rows : Int)
      ∧ 0 ≤ (c : Int) + d.2 ∧ (c : Int) + d.2 < (cols : Int)
      ∧ data.getD ((((r : Int) + d.1) * cols + ((c : Int) + d.2)).toNat) 0 = pixel))

/-- `setSelectedToValue_basic(src, dst, selected, value)`: samples equal to
`selected` become `value`, the rest are copied. -/
def setSelectedToValue_basic (data : List Nat) (selected value : Nat) :
    List Nat :=
  data.map (fun v => if v = selected then value else v)

/-- `blobinfo_t` (the `float` perimeter estimate is not modelled; no claim
inspects it). -/
structure blobinfo_t where
  height : Nat
  width : Nat
  nof_pixels : Nat
deriving DecidableEq, Repr

/-- `blobAnalyse_basic(img, blobnr, blobInfo)`: one raster scan tracking
`min_row/max_row/min_col/max_col` (`uint16_t`, initialized to
`rows-1/0/cols-1/0`) with the source's `if (coord < min) ... else if
(coord > max) ...` update, and a `uint16_t` pixel count; finally
`height = max_row - min_row + 1`, `width = max_col - min_col + 1`
(computed in `int`, stored in `uint16_t`). -/
def blobAnalyse_basic (img : image_t) (blobnr : Nat) : blobinfo_t :=
  let n := img.rows * img.cols
  let st := (List.range n).foldl
    (fun (acc : Nat × Nat × Nat × Nat × Nat) p =>
      let (min_row, max_row, min_col, max_col, cnt) := acc
      if img.data.getD p 0 = blobnr then
        let row := p / img.cols
        let col := p % img.cols
        let mm_col :=
          if col < min_col then (col, max_col)
          else if col > max_col then (min_col, col) else (min_col, max_col)
        let mm_row :=
          if row < min_row then (row, max_row)
          else if row > max_row then (min_row, row) else (min_row, max_row)
        (mm_row.1, mm_row.2, mm_col.1, mm_col.2, (cnt + 1) % 65536)
      else acc)
    (img.rows - 1, 0, img.cols - 1, 0, 0)
  { height := (((st.2.1 : Int) - (st.1 : Int) + 1).emod 65536).toNat
    width := (((st.2.2.2.1 : Int) - (st.2.2.1 : Int) + 1).emod 65536).toNat
    nof_pixels := st.2.2.2.2 }

/-- `centroid_basic(img, blobnr, &cc, &rc)`: raw moments `m00, m10, m01`
over the pixels labelled `blobnr`, then `cc = m10/m00 + 0.5` and
`rc = m01/m00 + 0.5` rounded down.  The C divides in `float`; with
`m00 = 0` it computes `0.0f/0.0f` (NaN) and casts it to `int32_t`
(undefined), modelled as `none`; the division is otherwise modelled
exactly over `ℚ`. -/
def centroid_basic (img : image_t) (blobnr : Nat) : Option (Int × Int) :=
  let n := img.rows * img.cols
  let st := (List.range n).foldl
    (fun (acc : Nat × Nat × Nat) p =>
      if img.data.getD p 0 = blobnr then
        (acc.1 + 1, acc.2.1 + p / img.cols, acc.2.2 + p % img.cols)
      else acc)
    (0, 0, 0)
  if st.1 = 0 then none
  else some (⌊(st.2.2 : ℚ) / st.1 + 1/2⌋, ⌊(st.2.1 : ℚ) / st.1 + 1/2⌋)

/-!
Morphology: `erode_basic` / `dilate_basic` walk, for every image pixel, the
kernel buffer linearly while tracking window offsets `w_row`/`w_col` from
`-rows/2`/`-cols/2`, advancing `w_col` after each probe and wrapping it past
`cols/2`; out-of-border window positions are skipped, and the scan breaks as
soon as the pixel's result is decided.
-/

/-- In-image test for a window position (`col + w_col < 0 ||
col + w_col >= src->cols || row + w_row < 0 || row + w_row >= src->rows`
negated). -/
def inImage (rows cols : Nat) (r c : Int) : Bool :=
  decide (0 ≤ r ∧ r < (rows : Int) ∧ 0 ≤ c ∧ c < (cols : Int))

/-- The kernel walk shared by erosion and dilation: `counter` probes left,
current offsets `(wr, wc)`, current kernel index `kidx`; `P` is the
per-position break condition (false on skipped out-of-border positions).
Returns whether the loop breaks. -/
def windowScan (kc2 : Int) (P : Int → Int → Nat → Bool) :
    Nat → Int → Int → Nat → Bool
  | 0, _, _, _ => false
  | counter + 1, wr, wc, kidx =>
    if P wr wc kidx then true
    else if wc + 1 > kc2 then windowScan kc2 P counter (wr + 1) (-kc2) (kidx + 1)
    else windowScan kc2 P counter wr (wc + 1) (kidx + 1)

/-- `erode_basic(src, dst, kernel)`: a pixel survives (1) unless some
in-border window position with kernel value 1 covers a 0 in `src`. -/
def erode_basic (src kernel : image_t) : image_t :=
  { cols := src.cols, rows := src.rows, view := .BINARY
    data := (List.range (src.cols * src.rows)).map (fun p =>
      let row := p / src.cols
      let col := p % src.cols
      if windowScan ((kernel.cols / 2 : Nat) : Int)
          (fun wr wc kidx =>
            inImage src.rows src.cols ((row : Int) + wr) ((col : Int) + wc)
            && decide (kernel.data.getD kidx 0 = 1)
            && decide (src.data.getD
                ((((row : Int) + wr) * src.cols + ((col : Int) + wc)).toNat) 0 = 0))
          (kernel.cols * kernel.rows)
          (-((kernel.rows / 2 : Nat) : Int)) (-((kernel.cols / 2 : Nat) : Int)) 0
      then 0 else 1) }

/-- `dilate_basic(src, dst, kernel)`: a pixel fires (1) if some in-border
window position with kernel value 1 covers a 1 in `src`. -/
def dilate_basic (src kernel : image_t) : image_t :=
  { cols := src.cols, rows := src.rows, view := .BINARY
    data := (List.range (src.cols * src.rows)).map (fun p =>
      let row := p / src.cols
      let col := p % src.cols
      if windowScan ((kernel.cols / 2 : Nat) : Int)
          (fun wr wc kidx =>
            inImage src.rows src.cols ((row : Int) + wr) ((col : Int) + wc)
            && decide (kernel.data.getD kidx 0 = 1)
            && decide (src.data.getD
                ((((row : Int) + wr) * src.cols + ((col : Int) + wc)).toNat) 0 = 1))
          (kernel.cols * kernel.rows)
          (-((kernel.rows / 2 : Nat) : Int)) (-((kernel.cols / 2 : Nat) : Int)) 0
      then 1 else 0) }

/-- `open_basic(src, dst, kernel)`: erode into a fresh temporary, dilate
that into `dst` (both rewrite every pixel, so the temporary's initial
contents never matter). -/
def open_basic (src kernel : image_t) : image_t :=
  dilate_basic (erode_basic src kernel) kernel

/-!
`labelBlobs_basic`: foreground 1s become the sentinel 255; bidirectional
raster passes repeat to a fixed point; each 255 pixel either spawns a fresh
label (when every in-border neighbour is 0 or 255, detected by comparing
`neighbourCount(0) + neighbourCount(255)` against the position-dependent
full neighbour count) or inherits the lowest labelled neighbour, and every
labelled pixel keeps relaxing down to the lowest neighbouring label; a
255th intermediate label aborts the whole call, which then returns 0.
After the fixed point, occupied labels are compacted to `1..blobCount`
through a histogram.
-/

/-- The `current_max_neighbours` selection: corner / edge / centre pixels
expect 2/3/4 (`FOUR`) or 3/5/8 (`EIGHT`) neighbours. -/
def expectedNeighbours (conn : eConnected) (rows cols r c : Nat) : Nat :=
  let corner := match conn with | .FOUR => 2 | .EIGHT => 3
  let edge := match conn with | .FOUR => 3 | .EIGHT => 5
  let center := match conn with | .FOUR => 4 | .EIGHT => 8
  if (r = 0 ∧ c = 0) ∨ (r = rows - 1 ∧ c = cols - 1)
      ∨ (r = rows - 1 ∧ c = 0) ∨ (r = 0 ∧ c = cols - 1) then corner
  else if r = 0 ∨ c = 0 ∨ r = rows - 1 ∨ c = cols - 1 then edge
  else center

/-- The label-inheritance search `for(j = 1; j < limit; j++) if
(neighbourCount(dst, col, row, j, connected) > 0) { *d = j; break; }`:
the first label below `limit` held by some neighbour. -/
def findLowestNbr (data : List Nat) (cols rows c r : Nat)
    (conn : eConnected) (limit : Nat) : Option Nat :=
  (List.range' 1 (limit - 1)).find?
    (fun j => 0 < neighbourCount_basic data cols rows c r j conn)

/-- The mutable state of a labelling run: the `dst` buffer, the next free
label `currentBlob`, the pass `changes` flag, and whether the C has
returned 0 on label overflow (`abort`). -/
structure LabelState where
  data : List Nat
  currentBlob : Nat
  changes : Bool
  abort : Bool
deriving DecidableEq, Repr

/-- Processing of one pixel in a labelling pass.  `cap` is the
upper bound of the inheritance search, `currentBlob` in the forward pass
and 255 in the backward pass (the C writes the literal there).  After the
abort the C has already returned, so the state is frozen. -/
def processPixel (conn : eConnected) (rows cols : Nat) (useCap : Bool)
    (st : LabelState) (p : Nat) : LabelState :=
  if st.abort then st else
  let r := p / cols
  let c := p % cols
  let v := st.data.getD p 0
  if v = 255 then
    if neighbourCount_basic st.data cols rows c r 0 conn
        + neighbourCount_basic st.data cols rows c r 255 conn
        = expectedNeighbours conn rows cols r c then
      if st.currentBlob = 255 then { st with abort := true }
      else { st with data := st.data.set p st.currentBlob
                     currentBlob := st.currentBlob + 1, changes := true }
    else
      match findLowestNbr st.data cols rows c r conn
          (if useCap then 255 else st.currentBlob) with
      | some j => { st with data := st.data.set p j, changes := true }
      | none => st
  else if v > 1 then
    match findLowestNbr st.data cols rows c r conn v with
    | some j => { st with data := st.data.set p j, changes := true }
    | none => st
  else st

/-- One forward (left-top to right-bottom) labelling pass. -/
def passFwd (conn : eConnected) (rows cols : Nat) (st : LabelState) :
    LabelState :=
  (List.range (rows * cols)).foldl (processPixel conn rows cols false) st

/-- One backward (right-bottom to left-top) labelling pass. -/
def passBwd (conn : eConnected) (rows cols : Nat) (st : LabelState) :
    LabelState :=
  ((List.range (rows * cols)).reverse).foldl (processPixel conn rows cols true) st

/-- The `while(changes--)` fixed-point loop: each iteration clears the flag,
runs a forward then a backward pass, stops on abort or on a change-free
iteration. `none`: not settled within `fuel` iterations. -/
def labelLoop (conn : eConnected) (rows cols : Nat) :
    Nat → LabelState → Option LabelState
  | 0, _ => none
  | fuel + 1, st =>
    let st' := passBwd conn rows cols (passFwd conn rows cols { st with changes := false })
    if st'.abort then some st'
    else if st'.changes then labelLoop conn rows cols fuel st'
    else some st'

/-- The labelling run on an image: copy `src` into `dst`, turn foreground 1s
into the 255 sentinel (`setSelectedToValue(dst, dst, 1, 255)`), and iterate
to the fixed point. -/
def labelBlobsFull (src : image_t) (conn : eConnected) (fuel : Nat) :
    Option LabelState :=
  labelLoop conn src.rows src.cols fuel
    { data := setSelectedToValue_basic src.pix 1 255
      currentBlob := 1, changes := true, abort := false }

/-- The label-compaction epilogue: one histogram of the settled buffer, then
`for(i = 1; i < 255; i++) if(hist[i] > 0) { blobCount++;
setSelectedToValue(dst, i, blobCount); }`.  Returns the remapped buffer and
`blobCount`. -/
def compactLabels (data : List Nat) : List Nat × Nat :=
  let hist := histList data
  (List.range' 1 254).foldl
    (fun acc i =>
      if hist i > 0 then
        (setSelectedToValue_basic acc.1 i (acc.2 + 1), acc.2 + 1)
      else acc)
    (data, 0)

/-- `labelBlobs_basic(src, dst, connected)`: 0 on abort (overflow) and when
no label was assigned, otherwise the compacted count; `dst` gets
`IMGVIEW_LABELED` at the start of the run. -/
def labelBlobs_basic (src : image_t) (conn : eConnected) (fuel : Nat) :
    Option (image_t × Nat) :=
  (labelBlobsFull src conn fuel).map (fun st =>
    if st.abort then ({ cols := src.cols, rows := src.rows, view := .LABELED, data := st.data }, 0)
    else if st.currentBlob = 1 then
      ({ cols := src.cols, rows := src.rows, view := .LABELED, data := st.data }, 0)
    else
      let c := compactLabels st.data
      ({ cols := src.cols, rows := src.rows, view := .LABELED, data := c.1 }, c.2))

/-!
A specification-side blob counter, modelled from the spec's glossary
("Blob: a maximal 4- or 8-connected region of foreground pixels"): a plain
seed-and-flood component count, used only to state how many blobs an image
contains when a claim quantifies over that number.
-/

/-- Adjacency of two flat pixel indices under a connectivity. -/
def specAdjacent (rows cols : Nat) (conn : eConnected) (p q : Nat) : Bool :=
  (offsets conn).any (fun d =>
    inImage rows cols ((p / cols : Nat) + d.1) ((p % cols : Nat) + d.2)
    && decide ((((p / cols : Nat) + d.1) * cols + ((p % cols : Nat) + d.2)).toNat = q))

/-- Fuelled breadth-first flood of the foreground component of the frontier. -/
def specFlood (rows cols : Nat) (conn : eConnected) (fg : Nat → Bool) :
    Nat → List Nat → List Bool → List Bool
  | 0, _, vis => vis
  | _ + 1, [], vis => vis
  | fuel + 1, p :: rest, vis =>
    let nbrs := (List.range (rows * cols)).filter
      (fun q => specAdjacent rows cols conn p q && fg q && !(vis.getD q false))
    specFlood rows cols conn fg fuel (rest ++ nbrs)
      (nbrs.foldl (fun v q => v.set q true) vis)

/-- Number of maximal connected foreground regions of a binary image
(spec-side definition, not C code). -/
def specNumBlobs (img : image_t) (conn : eConnected) : Nat :=
  let n := img.rows * img.cols
  let fg := fun p => decide (img.pix.getD p 0 = 1)
  ((List.range n).foldl
    (fun (acc : Nat × List Bool) p =>
      if fg p && !(acc.2.getD p false) then
        (acc.1 + 1,
         specFlood img.rows img.cols conn fg (n * n + 1) [p] (acc.2.set p true))
      else acc)
    (0, List.replicate n false)).1

/-!
`fillHoles_basic`, in its in-place form (`fillHoles(src, src, ...)` as the
pipeline calls it; the "copy ones" pass for `src != dst` is then a no-op):
mark border background pixels 2 (early-filling the whole image to 1 when no
border pixel is background), flood the 2 marker through interior background
to a fixed point with bidirectional passes, then promote remaining 0s to 1
and clear the 2s back to 0.
-/

/-- Border test for a flat index. -/
def isBorder (rows cols p : Nat) : Bool :=
  decide (p / cols = 0 ∨ p / cols = rows - 1 ∨ p % cols = 0 ∨ p % cols = cols - 1)

/-- The interior raster order (`(cols-2)*(rows-2)` pixels starting at
`(1,1)`, wrapping at column `cols-1`). -/
def interiorList (rows cols : Nat) : List Nat :=
  (List.range ((cols - 2) * (rows - 2))).map
    (fun i => (1 + i / (cols - 2)) * cols + (1 + i % (cols - 2)))

/-- One marking pass of the hole-fill flood over the given pixel order. -/
def fillPass (conn : eConnected) (rows cols : Nat) (order : List Nat)
    (st : List Nat × Bool) : List Nat × Bool :=
  order.foldl
    (fun acc p =>
      if acc.1.getD p 0 = 0
          ∧ 0 < neighbourCount_basic acc.1 cols rows (p % cols) (p / cols) 2 conn then
        (acc.1.set p 2, true)
      else acc)
    st

/-- The `while(changes--)` loop of `fillHoles_basic`. -/
def fillLoop (conn : eConnected) (rows cols : Nat) :
    Nat → List Nat → Option (List Nat)
  | 0, _ => none
  | fuel + 1, d =>
    let st := fillPass conn rows cols (interiorList rows cols).reverse
      (fillPass conn rows cols (interiorList rows cols) (d, false))
    if st.2 then fillLoop conn rows cols fuel st.1 else some st.1

/-- `fillHoles_basic(src, dst, connected)` with `src == dst`. -/
def fillHoles_basic (img : image_t) (conn : eConnected) (fuel : Nat) :
    Option image_t :=
  let n := img.rows * img.cols
  let d := img.pix
  let borderMarked := (List.range n).any
    (fun p => isBorder img.rows img.cols p && decide (d.getD p 0 = 0))
  if ¬ borderMarked then
    some { img with data := setSelectedToValue_basic d 0 1 }
  else
    let d1 := (List.range n).map (fun p =>
      if isBorder img.rows img.cols p ∧ d.getD p 0 = 0 then 2 else d.getD p 0)
    (fillLoop conn img.rows img.cols fuel d1).map (fun d2 =>
      { img with
        data := setSelectedToValue_basic (setSelectedToValue_basic d2 0 1) 2 0 })

/-!
The `WBFE_evaluate` pipeline of the Python C extension.  The three leading
stages (`gaussianBlur`, `contrastStretchFast`, `gamma_evdk`) compute through
`float`/`double` transcendentals and are abstracted as grayscale-to-grayscale
parameters, as is the per-blob `float` score
`(1 - roundness + eccentricity) / 2`; the claims settled here never depend
on their values.  `best_match` is an `int8_t` starting at -1; the final
`centroid(src, best_match)` converts it to the `uint8_t` blob number
`best_match mod 256`.
-/

/-- The blob-selection loop of `WBFE_evaluate`: blobs with
`info.nof_pixels < area_threshold` are skipped; among the rest the first
strict improvement over the running best score (initially 1000.0) wins. -/
def bestMatchLoop (labeled : image_t) (blob_count : Nat)
    (area_threshold : Int) (score : Nat → ℚ) : Int :=
  ((List.range' 1 blob_count).foldl
    (fun (acc : Int × ℚ) i =>
      let info := blobAnalyse_basic labeled i
      if (info.nof_pixels : Int) < area_threshold then acc
      else if score i < acc.2 then ((i : Int), score i) else acc)
    (-1, 1000)).1

/-- `WBFE_evaluate`: blur, stretch and gamma (abstracted), threshold at
`[0, threshold_param]`, invert, fill holes (8-connected), label blobs
(8-connected), select the best-scoring blob of sufficient area, and return
`centroid - target`.  `none` when a fixed-point stage ran out of fuel or
the final centroid divides by zero (`m00 = 0`, the unhandled
`best_match = -1` path). -/
def WBFE_evaluate (f1 f2 f3 : image_t → image_t) (score : Nat → ℚ)
    (src : image_t) (target : Int × Int) (threshold_param : Nat)
    (area_threshold : Int) (fuel : Nat) : Option (Int × Int) :=
  let s1 := f3 (f2 (f1 src))
  let s2 := threshold_basic s1 0 threshold_param
  let s3 := invert_basic s2 s2
  match fillHoles_basic s3 .EIGHT fuel with
  | none => none
  | some s4 =>
    match labelBlobs_basic s4 .EIGHT fuel with
    | none => none
    | some (s5, blob_count) =>
      let bm := bestMatchLoop s5 blob_count area_threshold score
      match centroid_basic s5 (bm.emod 256).toNat with
      | none => none
      | some cr => some (cr.1 - target.1, cr.2 - target.2)

/-!
Concrete images used by counterexamples, failing-input evaluations and
witnesses.
-/

/-- 1×4 constant image (every sample 7). -/
def imgConst7 : image_t := ⟨4, 1, .CLIP, [7, 7, 7, 7]⟩

/-- 1×5 image whose initial two-means threshold (4) is itself a sample
value. -/
def imgTEqSample : image_t := ⟨5, 1, .CLIP, [0, 4, 4, 4, 8]⟩

/-- 1×2 bimodal image with sample values 10 and 200. -/
def imgBimodal : image_t := ⟨2, 1, .CLIP, [10, 200]⟩

/-- 3×3 labelled image holding a single pixel of blob 1 at row 1, col 1. -/
def imgCenterBlob : image_t := ⟨3, 3, .LABELED, [0, 0, 0, 0, 1, 0, 0, 0, 0]⟩

/-- 1×3 binary image with one single-pixel blob. -/
def imgRowBlob : image_t := ⟨3, 1, .BINARY, [0, 1, 0]⟩

/-- 1×5 binary image with a single foreground pixel at the right border. -/
def imgRight1 : image_t := ⟨5, 1, .BINARY, [0, 0, 0, 0, 1]⟩

/-- 1×3 binary structuring element whose only 1 sits right of centre
(odd dimensions, not point-symmetric). -/
def kernelAsym : image_t := ⟨3, 1, .BINARY, [0, 0, 1]⟩

/-- 3×3 all-ones binary image. -/
def imgOnes33 : image_t := ⟨3, 3, .BINARY, [1, 1, 1, 1, 1, 1, 1, 1, 1]⟩

/-- 3×3 all-ones binary structuring element (point-symmetric). -/
def kernelBox33 : image_t := ⟨3, 3, .BINARY, [1, 1, 1, 1, 1, 1, 1, 1, 1]⟩

/-- 2×2 all-ones binary image. -/
def imgOnes22 : image_t := ⟨2, 2, .BINARY, [1, 1, 1, 1]⟩

/-- 4×4 all-zero input image for the pipeline. -/
def imgZero44 : image_t := ⟨4, 4, .CLIP, List.replicate 16 0⟩

/-- Claim C9: `threshold` maps each of the `rows*cols` samples to 1 exactly
when `low ≤ value ≤ high` (else 0) and tags the destination view `Binary`;
in particular `threshold(img, t, t)` yields 1 exactly at samples equal
to `t`. -/
theorem threshold_low_high_rule (src : image_t) (low high : Nat) :
    (threshold_basic src low high).view = .BINARY
    ∧ (∀ p, p < src.pix.length →
        (threshold_basic src low high).data.getD p 0
          = if low ≤ src.pix.getD p 0 ∧ src.pix.getD p 0 ≤ high then 1 else 0)
    ∧ ∀ t p, p < src.pix.length →
        ((threshold_basic src t t).data.getD p 0 = 1 ↔ src.pix.getD p 0 = t) := by
  refine ⟨rfl, ?_, ?_⟩
  · intro p hp
    simp only [threshold_basic, List.getD_eq_getElem?_getD, List.getElem?_map]
    rw [List.getElem?_eq_getElem hp]
    simp
  · intro t p hp
    simp only [threshold_basic, List.getD_eq_getElem?_getD, List.getElem?_map]
    rw [List.getElem?_eq_getElem hp]
    simp only [Option.map_some', Option.getD_some]
    split
    · next h => simp; omega
    · next h => simp; omega

/-- Witness for C9 at the 1×1 image `[5]` with `low = high = 5`. -/
theorem threshold_low_high_rule_witness :
    (0 < (⟨1, 1, .CLIP, [5]⟩ : image_t).pix.length)
    ∧ ((threshold_basic ⟨1, 1, .CLIP, [5]⟩ 5 5).data.getD 0 0 = 1
        ↔ (⟨1, 1, .CLIP, [5]⟩ : image_t).pix.getD 0 0 = 5) :=
  ⟨by decide, (threshold_low_high_rule ⟨1, 1, .CLIP, [5]⟩ 5 5).2.2 5 0 (by decide)⟩

/-- Claim C2 (failing input): on the constant image `[7,7,7,7]` the first
two-means iteration has an empty lower partition (`left_count = 0`), so the
C executes `left /= 0` — an unguarded integer division by zero — instead of
treating the empty partition's mean as 0 and producing a binary output:
the run yields no result (`none`), at any fuel beyond the first
iteration. -/
theorem threshold2Means_const_divides_by_zero :
    twoMeansStep (histogram_basic imgConst7) (twoMeansInitT imgConst7.pix) = none
    ∧ threshold2Means_basic 300 imgConst7 .BRIGHT = none
    ∧ threshold2Means_basic 300 imgConst7 .DARK = none := by
  decide

/-- Claim C6 (failing input): the blob of `imgCenterBlob` is the single
pixel at row 1, col 1, so its bounding-box extents are 1×1; but
`blobAnalyse_basic`'s `else if` min/max tracking leaves `max_row = max_col
= 0` while setting `min_row = min_col = 1`, and the returned width and
height are `0 - 1 + 1 = 0` instead of 1 (the pixel count is right). -/
theorem blobAnalyse_single_pixel_zero_extents :
    blobAnalyse_basic imgCenterBlob 1
      = { height := 0, width := 0, nof_pixels := 1 }
    ∧ (List.range (imgCenterBlob.rows * imgCenterBlob.cols)).countP
        (fun p => imgCenterBlob.data.getD p 0 = 1) = 1 := by
  decide

/-- The histogram of the 1×2 bimodal image: one sample 10, one sample 200. -/
theorem histogram_imgBimodal (b : Nat) :
    histogram_basic imgBimodal b = if b = 200 then 1 else if b = 10 then 1 else 0 := by
  have h : histogram_basic imgBimodal = histList [10, 200] := rfl
  rw [h]
  simp only [histList, List.foldl_cons, List.foldl_nil, Function.update]
  split
  · next hb => simp [hb]
  · next hb => split <;> simp_all

/-- An Otsu candidate with an empty histogram bin and no variance
improvement leaves the scan state unchanged. -/
theorem otsuStepAt_skip (hist : Nat → Nat) (N sum : Nat) (st : OtsuState)
    (b : Nat) (h0 : hist b = 0)
    (hle : ¬ otsuBCV N sum st.n_object st.sum_object > st.max_BCV) :
    otsuStepAt hist N sum st b = st := by
  cases st with
  | mk no so mx bt =>
    simp only [otsuStepAt, h0, Nat.add_zero, Nat.zero_mul] at *
    rw [if_neg hle]

/-- A whole run of empty-bin candidates without variance improvement is a
no-op. -/
theorem foldl_otsuStepAt_skip (hist : Nat → Nat) (N sum : Nat)
    (l : List Nat) (st : OtsuState) (h0 : ∀ b ∈ l, hist b = 0)
    (hle : ¬ otsuBCV N sum st.n_object st.sum_object > st.max_BCV) :
    l.foldl (otsuStepAt hist N sum) st = st := by
  induction l with
  | nil => rfl
  | cons a l ih =>
    rw [List.foldl_cons, otsuStepAt_skip hist N sum st a (h0 a (by simp))
      hle]
    exact ih (fun b hb => h0 b (by simp [hb]))

/-- Claim C8 (failing input): on the 1×2 bimodal image `[10, 200]` (both
values present) `thresholdOtsu_basic` selects `best_threshold = 10` — the
lower mode itself, not a value strictly between 10 and 200 — because the
between-class statistics count samples `<= b` as the object class while the
binarization takes samples `>= best_threshold`; every sample, the 10 as well
as the 200, is then mapped to `1 - brightness`.  (`threshold2Means_basic`,
by contrast, picks 105 here and separates the modes.) -/
theorem thresholdOtsu_bimodal_picks_lower_mode :
    otsuThreshold imgBimodal = 10
    ∧ (thresholdOtsu_basic imgBimodal .BRIGHT).data = [1, 1]
    ∧ (thresholdOtsu_basic imgBimodal .DARK).data = [0, 0]
    ∧ (threshold2Means_basic 300 imgBimodal .BRIGHT).map image_t.data
        = some [0, 1] := by
  have hsum : (((List.range 256).reverse).map
      (fun i => histogram_basic imgBimodal i * i)).sum = 210 := by decide
  have hN : imgBimodal.rows * imgBimodal.cols = 2 := rfl
  have hrange : List.range 256
      = List.range 10 ++ [10] ++ List.range' 11 189 ++ [200]
        ++ List.range' 201 55 := by decide
  have hthr : otsuThreshold imgBimodal = 10 := by
    have h : otsuThreshold imgBimodal
        = ((List.range 256).foldl
            (otsuStepAt (histogram_basic imgBimodal)
              (imgBimodal.rows * imgBimodal.cols)
              (((List.range 256).reverse).map
                (fun i => histogram_basic imgBimodal i * i)).sum)
            { n_object := 0, sum_object := 0, max_BCV := 0,
              best_threshold := 0 }).best_threshold := rfl
    rw [h, hsum, hN, hrange]
    rw [List.foldl_append, List.foldl_append, List.foldl_append,
      List.foldl_append]
    rw [foldl_otsuStepAt_skip _ 2 210 (List.range 10) _
      (fun b hb => by
        rw [histogram_imgBimodal]
        have : b < 10 := List.mem_range.mp hb
        rw [if_neg (by omega), if_neg (by omega)])
      (by norm_num [otsuBCV])]
    have h10 : List.foldl
        (otsuStepAt (histogram_basic imgBimodal) 2 210)
        { n_object := 0, sum_object := 0, max_BCV := 0, best_threshold := 0 }
        [10]
        = { n_object := 1, sum_object := 10, max_BCV := 36100,
            best_threshold := 10 } := by
      have h1 : histogram_basic imgBimodal 10 = 1 := by
        rw [histogram_imgBimodal]
        norm_num
      simp only [List.foldl_cons, List.foldl_nil, otsuStepAt, otsuBCV, h1]
      norm_num
    rw [h10]
    rw [foldl_otsuStepAt_skip _ 2 210 (List.range' 11 189) _
      (fun b hb => by
        rw [histogram_imgBimodal]
        have := List.mem_range'.mp hb
        rw [if_neg (by omega), if_neg (by omega)])
      (by norm_num [otsuBCV])]
    have h200 : List.foldl
        (otsuStepAt (histogram_basic imgBimodal) 2 210)
        { n_object := 1, sum_object := 10, max_BCV := 36100,
          best_threshold := 10 } [200]
        = { n_object := 2, sum_object := 210, max_BCV := 36100,
            best_threshold := 10 } := by
      have h1 : histogram_basic imgBimodal 200 = 1 := by
        rw [histogram_imgBimodal]
        norm_num
      simp only [List.foldl_cons, List.foldl_nil, otsuStepAt, otsuBCV, h1]
      norm_num
    rw [h200]
    rw [foldl_otsuStepAt_skip _ 2 210 (List.range' 201 55) _
      (fun b hb => by
        rw [histogram_imgBimodal]
        have := List.mem_range'.mp hb
        rw [if_neg (by omega), if_neg (by omega)])
      (by norm_num [otsuBCV])]
  refine ⟨hthr, ?_, ?_, by decide⟩
  · show (binarizeAt imgBimodal (otsuThreshold imgBimodal) .BRIGHT).data = _
    rw [hthr]
    decide
  · show (binarizeAt imgBimodal (otsuThreshold imgBimodal) .DARK).data = _
    rw [hthr]
    decide

/-- Claim C5 (counterexample): on `[0,4,4,4,8]` no partition is ever empty
in either reading, yet the code's result differs from the spec-worded
`{≤ T}/{> T}` algorithm: the code (which drops samples equal to `T`) stays
at `T = 4` and binarizes to `[b, 1-b, 1-b, 1-b, 1-b]`, while the spec's
partition puts the three 4s in the lower class, moves to `T = 5` and
binarizes to `[b, b, b, b, 1-b]`. -/
theorem threshold2Means_differs_from_le_partition_spec :
    (threshold2Means_basic 300 imgTEqSample .BRIGHT).map image_t.data
      = some [0, 1, 1, 1, 1]
    ∧ (threshold2MeansSpecLe 300 imgTEqSample .BRIGHT).map image_t.data
      = some [0, 0, 0, 0, 1]
    ∧ threshold2Means_basic 300 imgTEqSample .BRIGHT
      ≠ threshold2MeansSpecLe 300 imgTEqSample .BRIGHT := by
  refine ⟨rfl, rfl, ?_⟩
  decide

/-- Claim C7 (counterexample): with the odd 1×3 binary kernel `[0,0,1]`
(all hypotheses of the claim met, but the kernel is not point-symmetric)
opening the 1×5 binary image `[0,0,0,0,1]` yields `[0,0,1,1,0]`: pixel 2
is foreground in the opening but background in the original, because
`dilate_basic` probes the kernel unreflected. -/
theorem open_asymmetric_kernel_adds_foreground :
    (open_basic imgRight1 kernelAsym).data = [0, 0, 1, 1, 0]
    ∧ (open_basic imgRight1 kernelAsym).data.getD 2 0 = 1
    ∧ imgRight1.data.getD 2 0 = 0 := by
  refine ⟨rfl, rfl, rfl⟩

/-- Claim C3 (counterexample): the 1×3 binary image `[0,1,0]` contains
exactly one blob (well inside 1..254), yet `labelBlobs_basic` returns 0:
its single foreground pixel has only 2 in-border neighbours while an edge
pixel is expected to have 3, so the spawn rule never fires, the run
reaches its fixed point with the pixel still holding the 255 sentinel,
and `currentBlob == 1` makes the call return 0. -/
theorem labelBlobs_single_row_blob_returns_zero :
    (labelBlobs_basic imgRowBlob .FOUR 5).map Prod.snd = some 0
    ∧ (labelBlobs_basic imgRowBlob .EIGHT 5).map Prod.snd = some 0
    ∧ specNumBlobs imgRowBlob .FOUR = 1
    ∧ specNumBlobs imgRowBlob .EIGHT = 1 := by
  decide

/-- Claim C1 (failing input): the all-zero 4×4 image with `c = g = 1`
(identity gamma LUT), threshold 255 and area threshold 1 — blur, stretch
and gamma leave it all-zero, thresholding and inverting make it all
background, no blob exists, `best_match` stays -1, and the pipeline calls
`centroid` with blob id `(uint8_t)(-1) = 255`: no pixel carries 255, so
`m00 = 0` and the C computes `0.0f/0.0f` and casts NaN to `int32_t`
instead of reporting "no match found" (modelled `none`). -/
theorem WBFE_evaluate_no_blob_invalid_centroid :
    WBFE_evaluate id id id (fun _ => 0) imgZero44 (8, 8) 255 1 20 = none := by
  decide

/-- Bitwise or of a value below `2^k` with a `k`-shifted value is plain
addition (the two have no bits in common). -/
theorem lor_shiftLeft_disjoint (k : Nat) : ∀ a b : Nat, a < 2 ^ k →
    a ||| (b <<< k) = a + b * 2 ^ k := by
  induction k with
  | zero =>
    intro a b ha
    interval_cases a
    simp [Nat.shiftLeft_eq]
  | succ k ih =>
    intro a b ha
    have hdec : Nat.bit (a.testBit 0) (a >>> 1) = a :=
      Nat.bit_testBit_zero_shiftRight_one a
    have hsh : b <<< (k + 1) = Nat.bit false (b <<< k) := by
      simp [Nat.bit_val, Nat.shiftLeft_succ]
    rw [← hdec, hsh, Nat.lor_bit]
    have h2 : a >>> 1 = a / 2 := Nat.shiftRight_one a
    have h1 : a >>> 1 < 2 ^ k := by
      rw [h2]
      rw [pow_succ] at ha
      omega
    rw [ih (a >>> 1) b h1]
    simp only [Bool.or_false, Nat.bit_val]
    have h3 : (a.testBit 0).toNat = a % 2 := by
      rcases Nat.even_or_odd a with h | h
      · have := Nat.even_iff.mp h
        simp [Nat.testBit_zero, this]
      · have := Nat.odd_iff.mp h
        simp [Nat.testBit_zero, this]
    have h4 : b * 2 ^ (k + 1) = 2 * (b * 2 ^ k) := by ring
    rw [h2, h3, h4]
    omega

/-- Byte extraction from the `invert_basic` word when all four lanes are
binary: lane `j` stores `1 - v_j`. -/
theorem invertWord_bytes (v0 v1 v2 v3 : Nat) (h0 : v0 ≤ 1) (h1 : v1 ≤ 1)
    (h2 : v2 ≤ 1) (h3 : v3 ≤ 1) (j : Nat) (hj : j < 4) :
    wordByte (invertWord v0 v1 v2 v3) j = 1 - [v0, v1, v2, v3].getD j 0 := by
  interval_cases v0 <;> interval_cases v1 <;> interval_cases v2 <;>
    interval_cases v3 <;> interval_cases j <;> decide

/-- Byte extraction from the `gamma_basic` word: lane `j` stores the `j`-th
table value (all table values fit a byte). -/
theorem gammaWord_bytes (LUT : Nat → Nat) (hL : ∀ v, LUT v ≤ 255)
    (v0 v1 v2 v3 : Nat) (j : Nat) (hj : j < 4) :
    wordByte (gammaWord LUT v0 v1 v2 v3) j
      = [LUT v0, LUT v1, LUT v2, LUT v3].getD j 0 := by
  have ha := hL v0
  have hb := hL v1
  have hc := hL v2
  have hd := hL v3
  have hw : gammaWord LUT v0 v1 v2 v3
      = LUT v0 + LUT v1 * 256 + LUT v2 * 65536 + LUT v3 * 16777216 := by
    unfold gammaWord
    rw [lor_shiftLeft_disjoint 8 (LUT v0) (LUT v1) (by omega)]
    rw [lor_shiftLeft_disjoint 16 _ (LUT v2) (by norm_num; omega)]
    rw [lor_shiftLeft_disjoint 24 _ (LUT v3) (by norm_num; omega)]
    norm_num
  rw [hw]
  unfold wordByte
  interval_cases j <;> simp <;> omega

/-- For any index, a sample read of a binary buffer is at most 1 (reads past
the end default to 0). -/
theorem getD_le_one_of_binary (l : List Nat) (h : ∀ v ∈ l, v ≤ 1) (q : Nat) :
    l.getD q 0 ≤ 1 := by
  by_cases hq : q < l.length
  · rw [List.getD_eq_getElem l 0 hq]
    exact h _ (l.getElem_mem hq)
  · rw [List.getD_eq_default l 0 (by omega)]
    omega

/-- Claim C10: `invert` and `gamma` process the buffer in groups of four
samples.  The trailing `(cols*rows) mod 4` destination samples are never
written and keep `dst`'s previous values; every sample in the leading
`4 * (cols*rows / 4)` positions is transformed — by `1 - v` under `invert`
for binary input, and by the (clamped, byte-sized) lookup-table value under
`gamma`. -/
theorem invert_gamma_skip_tail_mod_four (src dst : image_t) (LUT : Nat → Nat)
    (hLUT : ∀ v, LUT v ≤ 255) :
    (∀ p, 4 * (src.cols * src.rows / 4) ≤ p →
        (invert_basic src dst).data.getD p 0 = dst.data.getD p 0
        ∧ (gamma_basic LUT src dst).data.getD p 0 = dst.data.getD p 0)
    ∧ (∀ p, p < 4 * (src.cols * src.rows / 4) →
        (gamma_basic LUT src dst).data.getD p 0 = LUT (src.data.getD p 0))
    ∧ ((∀ v ∈ src.data, v ≤ 1) → ∀ p, p < 4 * (src.cols * src.rows / 4) →
        (invert_basic src dst).data.getD p 0 = 1 - src.data.getD p 0) := by
  set n := src.cols * src.rows with hn
  have hlen : ∀ (f : Nat → Nat),
      ((List.range (4 * (n / 4))).map f).length = 4 * (n / 4) := by
    intro f
    simp
  have hhead : ∀ (f : Nat → Nat) (rest : List Nat) (p : Nat),
      p < 4 * (n / 4) →
      (((List.range (4 * (n / 4))).map f) ++ rest).getD p 0 = f p := by
    intro f rest p hp
    rw [List.getD_append _ _ _ _ (by rw [hlen]; exact hp)]
    simp [List.getD_eq_getElem?_getD, List.getElem?_range hp]
  have htail : ∀ (f : Nat → Nat) (p : Nat), 4 * (n / 4) ≤ p →
      (((List.range (4 * (n / 4))).map f) ++ dst.data.drop (4 * (n / 4))).getD p 0
        = dst.data.getD p 0 := by
    intro f p hp
    rw [List.getD_append_right _ _ _ _ (by rw [hlen]; exact hp)]
    rw [hlen]
    simp only [List.getD_eq_getElem?_getD, List.getElem?_drop]
    congr 2
    omega
  have hlane : ∀ (g : Nat → Nat) (p : Nat),
      [g (4 * (p / 4)), g (4 * (p / 4) + 1), g (4 * (p / 4) + 2),
        g (4 * (p / 4) + 3)].getD (p % 4) 0 = g p := by
    intro g p
    have h4 : p % 4 = 0 ∨ p % 4 = 1 ∨ p % 4 = 2 ∨ p % 4 = 3 := by omega
    rcases h4 with h | h | h | h <;> rw [h] <;> simp <;> congr 1 <;> omega
  refine ⟨fun p hp => ⟨htail _ p hp, htail _ p hp⟩, ?_, ?_⟩
  · intro p hp
    show (((List.range (4 * (n / 4))).map _) ++ dst.data.drop (4 * (n / 4))).getD p 0 = _
    rw [hhead _ _ p hp]
    rw [gammaWord_bytes LUT hLUT _ _ _ _ (p % 4) (by omega)]
    exact hlane (fun q => LUT (src.data.getD q 0)) p
  · intro hbin p hp
    show (((List.range (4 * (n / 4))).map _) ++ dst.data.drop (4 * (n / 4))).getD p 0 = _
    rw [hhead _ _ p hp]
    rw [invertWord_bytes _ _ _ _ (getD_le_one_of_binary _ hbin _)
      (getD_le_one_of_binary _ hbin _) (getD_le_one_of_binary _ hbin _)
      (getD_le_one_of_binary _ hbin _) (p % 4) (by omega)]
    rw [hlane (fun q => src.data.getD q 0) p]

/-- Witness for C10 on the 1×5 binary image `[1,0,1,1,0]` over a `dst`
buffer holding 9s: sample 4 (the tail, since `5 mod 4 = 1`) keeps the value
9, while sample 0 is transformed by both operators. -/
theorem invert_gamma_skip_tail_mod_four_witness :
    (invert_basic ⟨5, 1, .BINARY, [1, 0, 1, 1, 0]⟩
      ⟨5, 1, .CLIP, [9, 9, 9, 9, 9]⟩).data.getD 4 0 = 9
    ∧ (gamma_basic (fun v => v % 256) ⟨5, 1, .BINARY, [1, 0, 1, 1, 0]⟩
      ⟨5, 1, .CLIP, [9, 9, 9, 9, 9]⟩).data.getD 0 0 = 1
    ∧ (invert_basic ⟨5, 1, .BINARY, [1, 0, 1, 1, 0]⟩
      ⟨5, 1, .CLIP, [9, 9, 9, 9, 9]⟩).data.getD 0 0 = 0 := by
  have h := invert_gamma_skip_tail_mod_four ⟨5, 1, .BINARY, [1, 0, 1, 1, 0]⟩
    ⟨5, 1, .CLIP, [9, 9, 9, 9, 9]⟩ (fun v => v % 256)
    (fun v => by show v % 256 ≤ 255; omega)
  refine ⟨?_, ?_, ?_⟩
  · have h4 := (h.1 4 (by decide)).1
    rw [h4]
    decide
  · have h0 := h.2.1 0 (by decide)
    rw [h0]
    decide
  · have h0 := h.2.2 (by decide) 0 (by decide)
    rw [h0]
    decide

/-- The paired min/max scan is the pair of `Nat.min`/`Nat.max` folds. -/
theorem minMaxScan_eq (l : List Nat) :
    minMaxScan l = (l.foldl Nat.min 255, l.foldl Nat.max 0) := by
  unfold minMaxScan
  suffices h : ∀ a b : Nat, l.foldl (fun mm v =>
      (if v < mm.1 then v else mm.1, if v > mm.2 then v else mm.2)) (a, b)
      = (l.foldl Nat.min a, l.foldl Nat.max b) from h 255 0
  induction l with
  | nil => intro a b; rfl
  | cons x l ih =>
    intro a b
    rw [List.foldl_cons, List.foldl_cons, List.foldl_cons, ih]
    congr 2
    · simp [Nat.min_def]
      split <;> split <;> omega
    · simp [Nat.max_def]
      split <;> split <;> omega

/-- A `Nat.min` fold is bounded by every list element. -/
theorem foldl_min_le (l : List Nat) : ∀ (a : Nat) (v : Nat), v ∈ l →
    l.foldl Nat.min a ≤ v := by
  induction l with
  | nil => intro a v hv; cases hv
  | cons x l ih =>
    intro a v hv
    rw [List.foldl_cons]
    rcases List.mem_cons.mp hv with h | h
    · subst h
      calc l.foldl Nat.min (Nat.min a v) ≤ Nat.min a v := by
            clear ih hv
            induction l generalizing a v with
            | nil => exact le_refl _
            | cons y l ih2 =>
              rw [List.foldl_cons]
              exact le_trans (ih2 (Nat.min a v) y) (Nat.min_le_left _ _)
        _ ≤ v := Nat.min_le_right a v
    · exact ih _ v h

/-- A `Nat.max` fold dominates every list element. -/
theorem le_foldl_max (l : List Nat) : ∀ (a : Nat) (v : Nat), v ∈ l →
    v ≤ l.foldl Nat.max a := by
  induction l with
  | nil => intro a v hv; cases hv
  | cons x l ih =>
    intro a v hv
    rw [List.foldl_cons]
    rcases List.mem_cons.mp hv with h | h
    · subst h
      calc v ≤ Nat.max a v := Nat.le_max_right a v
        _ ≤ l.foldl Nat.max (Nat.max a v) := by
            clear ih hv
            induction l generalizing a v with
            | nil => exact le_refl _
            | cons y l ih2 =>
              rw [List.foldl_cons]
              exact le_trans (Nat.le_max_left _ y) (ih2 (Nat.max a v) y)
        _ = l.foldl Nat.max (Nat.max a v) := rfl
    · exact ih _ v h

/-- A `Nat.max` fold over byte-sized elements stays byte-sized. -/
theorem foldl_max_lt_256 (l : List Nat) (h : ∀ v ∈ l, v < 256) :
    ∀ a : Nat, a < 256 → l.foldl Nat.max a < 256 := by
  induction l with
  | nil => intro a ha; exact ha
  | cons x l ih =>
    intro a ha
    rw [List.foldl_cons]
    exact ih (fun v hv => h v (by simp [hv]))
      _ (Nat.max_lt.mpr ⟨ha, h x (by simp)⟩)

/-- The downward accumulation loop of `threshold2Means_basic` computes the
filtered histogram sums of the two open partitions, over any bin order. -/
theorem twoMeansSums_foldl_eq (hist : Nat → Nat) (T : Nat) (l : List Nat) :
    ∀ acc : Nat × Nat × Nat × Nat,
    l.foldl (fun acc i =>
      if i > T then (acc.1 + hist i * i, acc.2.1 + hist i, acc.2.2.1, acc.2.2.2)
      else if i < T then (acc.1, acc.2.1, acc.2.2.1 + hist i * i, acc.2.2.2 + hist i)
      else acc) acc
    = (acc.1 + ((l.filter (fun i => T < i)).map (fun i => hist i * i)).sum,
       acc.2.1 + ((l.filter (fun i => T < i)).map hist).sum,
       acc.2.2.1 + ((l.filter (fun i => i < T)).map (fun i => hist i * i)).sum,
       acc.2.2.2 + ((l.filter (fun i => i < T)).map hist).sum) := by
  induction l with
  | nil => intro acc; simp
  | cons x l ih =>
    intro acc
    rw [List.foldl_cons, ih]
    by_cases hgt : T < x
    · have hlt : ¬ x < T := by omega
      rw [if_pos hgt]
      rw [List.filter_cons_of_pos (by simpa using hgt),
        List.filter_cons_of_neg (by simpa using hlt)]
      simp only [List.map_cons, List.sum_cons, Prod.mk.injEq]
      repeat' apply And.intro
      all_goals first
      | trivial
      | omega
    · rw [if_neg hgt]
      by_cases hlt : x < T
      · rw [if_pos hlt]
        rw [List.filter_cons_of_neg (by simpa using hgt),
          List.filter_cons_of_pos (by simpa using hlt)]
        simp only [List.map_cons, List.sum_cons, Prod.mk.injEq]
        repeat' apply And.intro
        all_goals first
        | trivial
        | omega
      · rw [if_neg hlt]
        rw [List.filter_cons_of_neg (by simpa using hgt),
          List.filter_cons_of_neg (by simpa using hlt)]

/-- One code iteration equals one spec iteration with the strict `{< T}`
partition: the C's downward accumulation computes exactly the open
partition sums. -/
theorem twoMeansStep_eq_specLt (hist : Nat → Nat) (T : Nat) :
    twoMeansStep hist T = twoMeansStepSpecLt hist T := by
  unfold twoMeansStep twoMeansStepSpecLt twoMeansSums
  rw [twoMeansSums_foldl_eq]
  simp only [List.filter_reverse, List.map_reverse, List.sum_reverse,
    Nat.zero_add]

/-- The whole code iteration equals the spec iteration with the strict
partition, fuel for fuel. -/
theorem twoMeansIter_eq_specLt (hist : Nat → Nat) (fuel : Nat) : ∀ T : Nat,
    twoMeansIter hist fuel T
      = twoMeansIterSpec twoMeansStepSpecLt hist fuel T := by
  induction fuel with
  | zero => intro T; rfl
  | succ fuel ih =>
    intro T
    show (match twoMeansStep hist T with
      | none => none
      | some T' => if T' = T then some T else twoMeansIter hist fuel T')
      = (match twoMeansStepSpecLt hist T with
      | none => none
      | some T' => if T' = T then some T
          else twoMeansIterSpec twoMeansStepSpecLt hist fuel T')
    rw [twoMeansStep_eq_specLt]
    cases twoMeansStepSpecLt hist T with
    | none => rfl
    | some T' =>
      by_cases h : T' = T
      · simp [h]
      · simp only [if_neg h]
        exact ih T'

/-- The `uint8_t` conversion dance of the initial threshold collapses to
plain `Nat` arithmetic once `min <= max < 256`. -/
theorem initT_cast (mn mx : Nat) (hle : mn ≤ mx) (hlt : mx < 256) :
    ((((mx : Int) - (mn : Int)).tdiv 2).emod 256).toNat = (mx - mn) / 2 := by
  have h1 : (mx : Int) - (mn : Int) = ((mx - mn : Nat) : Int) := by omega
  rw [h1]
  have h2 : (((mx - mn : Nat) : Int)).tdiv 2 = (((mx - mn) / 2 : Nat) : Int) := rfl
  rw [h2]
  have h3 : ((((mx - mn) / 2 : Nat) : Int)).emod 256
      = ((((mx - mn) / 2) % 256 : Nat) : Int) := rfl
  rw [h3]
  have h4 : ((mx - mn) / 2) % 256 = (mx - mn) / 2 := by omega
  rw [h4]
  rfl

/-- On a byte-valued non-empty sample list the C's `uint8_t`-converted
`(max - min) / 2` initial threshold is the plain `Nat` expression. -/
theorem twoMeansInitT_eq (l : List Nat) (h256 : ∀ v ∈ l, v < 256)
    (hne : l ≠ []) :
    twoMeansInitT l = (l.foldl Nat.max 0 - l.foldl Nat.min 255) / 2 := by
  obtain ⟨e, he⟩ := List.exists_mem_of_ne_nil l hne
  have hmin_le : l.foldl Nat.min 255 ≤ e := foldl_min_le l 255 e he
  have he_le : e ≤ l.foldl Nat.max 0 := le_foldl_max l 0 e he
  have hmax_lt : l.foldl Nat.max 0 < 256 :=
    foldl_max_lt_256 l h256 0 (by norm_num)
  unfold twoMeansInitT
  rw [minMaxScan_eq]
  exact initT_cast _ _ (le_trans hmin_le he_le) hmax_lt

/-- An empty sample list gives the all-zero histogram, on which every
spec-side iteration fails at its first step (both partitions empty). -/
theorem twoMeansIterSpec_nil (fuel T : Nat) :
    twoMeansIterSpec twoMeansStepSpecLt (histList []) fuel T = none := by
  cases fuel with
  | zero => rfl
  | succ fuel =>
    show (match twoMeansStepSpecLt (histList []) T with
      | none => none
      | some T' => if T' = T then some T
          else twoMeansIterSpec twoMeansStepSpecLt (histList []) fuel T') = none
    have hstep : twoMeansStepSpecLt (histList []) T = none := by
      unfold twoMeansStepSpecLt
      have hz : ∀ m : List Nat, (m.map (histList [])).sum = 0 := by
        intro m
        apply List.sum_eq_zero
        intro x hx
        obtain ⟨i, _, hi⟩ := List.mem_map.mp hx
        rw [← hi]
        rfl
      rw [if_pos (Or.inl (hz _))]
    rw [hstep]

/-- Claim C5 (amended): `threshold2Means_basic` coincides, for every image
with byte-sized samples, every fuel and both brightness settings, with the
spec-worded algorithm amended to the strict partition `{values < T}` /
`{values > T}`: initialize `T = (max - min)/2` from the sample range,
average the two partition means until `T` is stable, binarize samples
`≥ T` to `1 - brightness`. -/
theorem threshold2Means_eq_strict_partition_spec (fuel : Nat)
    (src : image_t) (b : eBrightness) (h256 : ∀ v ∈ src.data, v < 256) :
    threshold2Means_basic fuel src b = threshold2MeansSpecLt fuel src b := by
  unfold threshold2Means_basic threshold2MeansSpecLt
  have hh : histogram_basic src = histList src.pix := rfl
  rw [hh, twoMeansIter_eq_specLt]
  by_cases hne : src.pix = []
  · rw [hne]
    simp [twoMeansIterSpec_nil]
  · rw [twoMeansInitT_eq src.pix
      (fun v hv => h256 v (List.mem_of_mem_take hv)) hne]

/-- Witness for the amended C5 on the counterexample image itself. -/
theorem threshold2Means_eq_strict_partition_spec_witness :
    (∀ v ∈ imgTEqSample.data, v < 256)
    ∧ threshold2Means_basic 300 imgTEqSample .BRIGHT
        = threshold2MeansSpecLt 300 imgTEqSample .BRIGHT :=
  ⟨by decide, threshold2Means_eq_strict_partition_spec 300 imgTEqSample .BRIGHT
    (by decide)⟩

/-- Row/column extraction from a flat row-major index. -/
theorem index_div_mod (cols r c : Nat) (hc : c < cols) :
    (r * cols + c) / cols = r ∧ (r * cols + c) % cols = c := by
  have hpos : 0 < cols := by omega
  constructor
  · rw [Nat.add_comm, Nat.mul_comm, Nat.add_mul_div_left c r hpos,
      Nat.div_eq_of_lt hc]
    omega
  · rw [Nat.add_comm, Nat.mul_comm, Nat.add_mul_mod_self_left,
      Nat.mod_eq_of_lt hc]

/-- Division and remainder of a successor, split on whether the remainder
wraps. -/
theorem succ_div_mod_wrap (kc kidx : Nat) (h : 0 < kc)
    (hw : kidx % kc = kc - 1) :
    (kidx + 1) % kc = 0 ∧ (kidx + 1) / kc = kidx / kc + 1 := by
  have hd := Nat.div_add_mod kidx kc
  have h1 : kidx + 1 = kc * (kidx / kc + 1) := by
    rw [Nat.mul_add, Nat.mul_one]
    omega
  constructor
  · rw [h1, Nat.mul_mod_right]
  · rw [h1, Nat.mul_div_cancel_left _ h]

/-- Division and remainder of a successor when the remainder does not
wrap. -/
theorem succ_div_mod_nowrap (kc kidx : Nat) (h : 0 < kc)
    (hw : kidx % kc + 1 < kc) :
    (kidx + 1) % kc = kidx % kc + 1 ∧ (kidx + 1) / kc = kidx / kc := by
  have hd := Nat.div_add_mod kidx kc
  have h1 : kidx + 1 = (kidx % kc + 1) + kc * (kidx / kc) := by omega
  constructor
  · rw [h1, Nat.add_mul_mod_self_left, Nat.mod_eq_of_lt hw]
  · rw [h1, Nat.add_mul_div_left _ _ h, Nat.div_eq_of_lt hw, Nat.zero_add]


/-- Row/column of the point-reflected kernel index. -/
theorem revIndex_div_mod (kr kc m : Nat) (hm : m < kr * kc) (hkc : 0 < kc) :
    (kr * kc - 1 - m) / kc = kr - 1 - m / kc
    ∧ (kr * kc - 1 - m) % kc = kc - 1 - m % kc := by
  have hd := Nat.div_add_mod m kc
  have hr : m % kc < kc := Nat.mod_lt _ hkc
  have hq : m / kc < kr := by
    rcases Nat.lt_or_ge (m / kc) kr with h | h
    · exact h
    · exfalso
      have : kr * kc ≤ (m / kc) * kc := Nat.mul_le_mul_right _ h
      have : (m / kc) * kc ≤ m := Nat.div_mul_le_self m kc
      omega
  have hkr : 0 < kr := by
    rcases Nat.eq_zero_or_pos kr with h | h
    · subst h; simp at hm
    · exact h
  have key : kr * kc - 1 - m = (kr - 1 - m / kc) * kc + (kc - 1 - m % kc) := by
    have e1 : (kr - 1 - m / kc) * kc = kr * kc - kc - (m / kc) * kc := by
      rw [Nat.sub_mul, Nat.sub_mul, Nat.one_mul]
    have e2 : (m / kc) * kc + m % kc = m := by
      rw [Nat.mul_comm] at hd
      omega
    have e3 : (m / kc) * kc + kc ≤ kr * kc := by
      have : m / kc + 1 ≤ kr := hq
      calc (m / kc) * kc + kc = (m / kc + 1) * kc := by ring
        _ ≤ kr * kc := Nat.mul_le_mul_right _ this
    omega
  rw [key]
  have := index_div_mod kc (kr - 1 - m / kc) (kc - 1 - m % kc) (by omega)
  exact ⟨this.1, this.2⟩

/-- The kernel walk of the morphology operators visits, for an
odd-width kernel, exactly the grid positions `(kidx / kc - kr/2,
kidx % kc - kc/2)`: starting anywhere in the walk, the scan breaks
exactly when some remaining kernel index satisfies the probe. -/
theorem windowScan_iff (kc : Nat) (hkc : kc % 2 = 1) (K : Nat)
    (P : Int → Int → Nat → Bool) (kr2 : Int) :
    ∀ counter kidx, counter + kidx = K →
    (windowScan ((kc / 2 : Nat) : Int) P counter
        (((kidx / kc : Nat) : Int) - kr2)
        (((kidx % kc : Nat) : Int) - ((kc / 2 : Nat) : Int)) kidx = true
      ↔ ∃ m, kidx ≤ m ∧ m < K
          ∧ P (((m / kc : Nat) : Int) - kr2)
              (((m % kc : Nat) : Int) - ((kc / 2 : Nat) : Int)) m = true) := by
  intro counter
  induction counter with
  | zero =>
    intro kidx hK
    simp only [windowScan]
    constructor
    · intro h; cases h
    · rintro ⟨m, hm1, hm2, _⟩; omega
  | succ counter ih =>
    intro kidx hK
    have hkcpos : 0 < kc := by omega
    have hmodlt : kidx % kc < kc := Nat.mod_lt _ hkcpos
    by_cases hP : P (((kidx / kc : Nat) : Int) - kr2)
        (((kidx % kc : Nat) : Int) - ((kc / 2 : Nat) : Int)) kidx = true
    · simp only [windowScan, hP, if_true, true_iff]
      exact ⟨kidx, le_refl _, by omega, hP⟩
    · rw [show windowScan ((kc / 2 : Nat) : Int) P (counter + 1)
          (((kidx / kc : Nat) : Int) - kr2)
          (((kidx % kc : Nat) : Int) - ((kc / 2 : Nat) : Int)) kidx
        = (if P (((kidx / kc : Nat) : Int) - kr2)
              (((kidx % kc : Nat) : Int) - ((kc / 2 : Nat) : Int)) kidx
           then true
           else if (((kidx % kc : Nat) : Int) - ((kc / 2 : Nat) : Int)) + 1
              > ((kc / 2 : Nat) : Int)
           then windowScan ((kc / 2 : Nat) : Int) P counter
              ((((kidx / kc : Nat) : Int) - kr2) + 1)
              (-((kc / 2 : Nat) : Int)) (kidx + 1)
           else windowScan ((kc / 2 : Nat) : Int) P counter
              (((kidx / kc : Nat) : Int) - kr2)
              ((((kidx % kc : Nat) : Int) - ((kc / 2 : Nat) : Int)) + 1)
              (kidx + 1)) from rfl]
      rw [if_neg hP]
      have hnext : (if (((kidx % kc : Nat) : Int) - ((kc / 2 : Nat) : Int)) + 1
              > ((kc / 2 : Nat) : Int)
           then windowScan ((kc / 2 : Nat) : Int) P counter
              ((((kidx / kc : Nat) : Int) - kr2) + 1)
              (-((kc / 2 : Nat) : Int)) (kidx + 1)
           else windowScan ((kc / 2 : Nat) : Int) P counter
              (((kidx / kc : Nat) : Int) - kr2)
              ((((kidx % kc : Nat) : Int) - ((kc / 2 : Nat) : Int)) + 1)
              (kidx + 1))
          = windowScan ((kc / 2 : Nat) : Int) P counter
              ((((kidx + 1) / kc : Nat) : Int) - kr2)
              ((((kidx + 1) % kc : Nat) : Int) - ((kc / 2 : Nat) : Int))
              (kidx + 1) := by
        by_cases hwrap : kidx % kc = kc - 1
        · obtain ⟨hm0, hd1⟩ := succ_div_mod_wrap kc kidx hkcpos hwrap
          rw [if_pos (by rw [hwrap]; push_cast; omega)]
          rw [hm0, hd1]
          congr 1
          · push_cast; ring
          · push_cast; omega
        · obtain ⟨hm1, hd1⟩ := succ_div_mod_nowrap kc kidx hkcpos (by omega)
          rw [if_neg (by
            rw [show ¬ ((((kidx % kc : Nat) : Int) - ((kc / 2 : Nat) : Int)) + 1
                > ((kc / 2 : Nat) : Int))
              ↔ (((kidx % kc : Nat) : Int) + 1 ≤ 2 * ((kc / 2 : Nat) : Int))
              from by constructor <;> (intro h; omega)]
            have : kidx % kc + 1 ≤ 2 * (kc / 2) := by omega
            push_cast
            omega)]
          rw [hm1, hd1]
          congr 1
          push_cast
          ring
      rw [hnext, ih (kidx + 1) (by omega)]
      constructor
      · rintro ⟨m, hm1, hm2, hm3⟩
        exact ⟨m, by omega, hm2, hm3⟩
      · rintro ⟨m, hm1, hm2, hm3⟩
        rcases Nat.eq_or_lt_of_le hm1 with h | h
        · exact absurd (h ▸ hm3) hP
        · exact ⟨m, by omega, hm2, hm3⟩

/-- The whole kernel walk of `erode_basic`/`dilate_basic`, for an odd-width
kernel, breaks exactly when some kernel index `m` probes successfully at
grid offset `(m / kc - kr/2, m % kc - kc/2)`. -/
theorem morphScan_iff (rows cols : Nat) (kernelData : List Nat)
    (kr kc : Nat) (hkc : kc % 2 = 1) (srcData : List Nat) (test : Nat)
    (row col : Nat) :
    (windowScan ((kc / 2 : Nat) : Int)
        (fun wr wc kidx =>
          inImage rows cols ((row : Int) + wr) ((col : Int) + wc)
          && decide (kernelData.getD kidx 0 = 1)
          && decide (srcData.getD
              ((((row : Int) + wr) * cols + ((col : Int) + wc)).toNat) 0 = test))
        (kc * kr) (-((kr / 2 : Nat) : Int)) (-((kc / 2 : Nat) : Int)) 0 = true)
    ↔ ∃ m, m < kc * kr
        ∧ (inImage rows cols
            ((row : Int) + (((m / kc : Nat) : Int) - ((kr / 2 : Nat) : Int)))
            ((col : Int) + (((m % kc : Nat) : Int) - ((kc / 2 : Nat) : Int)))
          && decide (kernelData.getD m 0 = 1)
          && decide (srcData.getD
              ((((row : Int) + (((m / kc : Nat) : Int) - ((kr / 2 : Nat) : Int)))
                  * cols
                + ((col : Int) + (((m % kc : Nat) : Int)
                  - ((kc / 2 : Nat) : Int)))).toNat) 0 = test)) = true := by
  have h := windowScan_iff kc hkc (kc * kr)
    (fun wr wc kidx =>
      inImage rows cols ((row : Int) + wr) ((col : Int) + wc)
      && decide (kernelData.getD kidx 0 = 1)
      && decide (srcData.getD
          ((((row : Int) + wr) * cols + ((col : Int) + wc)).toNat) 0 = test))
    ((kr / 2 : Nat) : Int) (kc * kr) 0 (by omega)
  simp only [Nat.zero_div, Nat.zero_mod, Nat.cast_zero, zero_sub,
    Nat.zero_le, true_and] at h
  rw [h]

/-- Element of a mapped range list. -/
theorem getD_map_range (n : Nat) (f : Nat → Nat) (p : Nat) (hp : p < n) :
    ((List.range n).map f).getD p 0 = f p := by
  rw [List.getD_eq_getElem?_getD, List.getElem?_map, List.getElem?_range hp]
  rfl

/-- A row-major index built from in-range row and column is in range. -/
theorem index_lt (cols rows r c : Nat) (hr : r < rows) (hc : c < cols) :
    r * cols + c < cols * rows := by
  have h1 : r * cols + cols ≤ rows * cols := by
    calc r * cols + cols = (r + 1) * cols := by ring
      _ ≤ rows * cols := Nat.mul_le_mul_right _ hr
  have h2 : rows * cols = cols * rows := Nat.mul_comm _ _
  omega

/-- Pixel characterization of `erode_basic` for odd-width kernels: the
pixel at row `r`, column `c` is erased exactly when some kernel grid
position with value 1 covers an in-border 0 of `src`. -/
theorem erode_basic_getD (src kernel : image_t) (hkc : kernel.cols % 2 = 1)
    (r c : Nat) (hr : r < src.rows) (hc : c < src.cols) :
    (erode_basic src kernel).data.getD (r * src.cols + c) 0
      = if (∃ m, m < kernel.cols * kernel.rows
          ∧ (inImage src.rows src.cols
              ((r : Int) + (((m / kernel.cols : Nat) : Int)
                - ((kernel.rows / 2 : Nat) : Int)))
              ((c : Int) + (((m % kernel.cols : Nat) : Int)
                - ((kernel.cols / 2 : Nat) : Int)))
            && decide (kernel.data.getD m 0 = 1)
            && decide (src.data.getD
                ((((r : Int) + (((m / kernel.cols : Nat) : Int)
                    - ((kernel.rows / 2 : Nat) : Int))) * src.cols
                  + ((c : Int) + (((m % kernel.cols : Nat) : Int)
                    - ((kernel.cols / 2 : Nat) : Int)))).toNat) 0 = 0)) = true)
        then 0 else 1 := by
  have hp : r * src.cols + c < src.cols * src.rows :=
    index_lt src.cols src.rows r c hr hc
  unfold erode_basic
  rw [getD_map_range _ _ _ hp]
  show (if windowScan ((kernel.cols / 2 : Nat) : Int)
      (fun wr wc kidx =>
        inImage src.rows src.cols
          (((r * src.cols + c) / src.cols : Nat) + wr)
          (((r * src.cols + c) % src.cols : Nat) + wc)
        && decide (kernel.data.getD kidx 0 = 1)
        && decide (src.data.getD
            (((((r * src.cols + c) / src.cols : Nat) : Int) + wr) * src.cols
              + ((((r * src.cols + c) % src.cols : Nat) : Int) + wc)).toNat 0 = 0))
      (kernel.cols * kernel.rows)
      (-((kernel.rows / 2 : Nat) : Int)) (-((kernel.cols / 2 : Nat) : Int)) 0
    then (0 : Nat) else 1) = _
  rw [(index_div_mod src.cols r c hc).1, (index_div_mod src.cols r c hc).2]
  rw [show ∀ b : Bool, (if b then (0 : Nat) else 1) = (if b = true then (0 : Nat) else 1)
    from fun b => rfl]
  exact if_congr (morphScan_iff src.rows src.cols kernel.data kernel.rows
    kernel.cols hkc src.data 0 r c) rfl rfl

/-- Pixel characterization of `dilate_basic` for odd-width kernels. -/
theorem dilate_basic_getD (src kernel : image_t) (hkc : kernel.cols % 2 = 1)
    (r c : Nat) (hr : r < src.rows) (hc : c < src.cols) :
    (dilate_basic src kernel).data.getD (r * src.cols + c) 0
      = if (∃ m, m < kernel.cols * kernel.rows
          ∧ (inImage src.rows src.cols
              ((r : Int) + (((m / kernel.cols : Nat) : Int)
                - ((kernel.rows / 2 : Nat) : Int)))
              ((c : Int) + (((m % kernel.cols : Nat) : Int)
                - ((kernel.cols / 2 : Nat) : Int)))
            && decide (kernel.data.getD m 0 = 1)
            && decide (src.data.getD
                ((((r : Int) + (((m / kernel.cols : Nat) : Int)
                    - ((kernel.rows / 2 : Nat) : Int))) * src.cols
                  + ((c : Int) + (((m % kernel.cols : Nat) : Int)
                    - ((kernel.cols / 2 : Nat) : Int)))).toNat) 0 = 1)) = true)
        then 1 else 0 := by
  have hp : r * src.cols + c < src.cols * src.rows :=
    index_lt src.cols src.rows r c hr hc
  unfold dilate_basic
  rw [getD_map_range _ _ _ hp]
  show (if windowScan ((kernel.cols / 2 : Nat) : Int)
      (fun wr wc kidx =>
        inImage src.rows src.cols
          (((r * src.cols + c) / src.cols : Nat) + wr)
          (((r * src.cols + c) % src.cols : Nat) + wc)
        && decide (kernel.data.getD kidx 0 = 1)
        && decide (src.data.getD
            (((((r * src.cols + c) / src.cols : Nat) : Int) + wr) * src.cols
              + ((((r * src.cols + c) % src.cols : Nat) : Int) + wc)).toNat 0 = 1))
      (kernel.cols * kernel.rows)
      (-((kernel.rows / 2 : Nat) : Int)) (-((kernel.cols / 2 : Nat) : Int)) 0
    then (1 : Nat) else 0) = _
  rw [(index_div_mod src.cols r c hc).1, (index_div_mod src.cols r c hc).2]
  rw [show ∀ b : Bool, (if b then (1 : Nat) else 0) = (if b = true then (1 : Nat) else 0)
    from fun b => rfl]
  exact if_congr (morphScan_iff src.rows src.cols kernel.data kernel.rows
    kernel.cols hkc src.data 1 r c) rfl rfl


/-- Claim C7 (amended): for binary images and binary structuring elements of
odd width and height that are point-symmetric (the kernel value at index `m`
equals the value at the mirrored index `cols*rows - 1 - m`, which holds for
all the usual box/cross/disc elements), morphological opening never adds
foreground: every 1 of `open_basic src kernel` is a 1 of `src`.  For
non-symmetric kernels the property fails (see the counterexample theorem),
because `vDilate_basic` probes the kernel unreflected. -/
theorem open_symmetric_no_new_foreground (src kernel : image_t)
    (hkc : kernel.cols % 2 = 1) (hkr : kernel.rows % 2 = 1)
    (hsym : ∀ m, m < kernel.cols * kernel.rows →
      kernel.data.getD m 0 = kernel.data.getD (kernel.cols * kernel.rows - 1 - m) 0)
    (hbin : ∀ v ∈ src.data, v ≤ 1) (p : Nat) (hp : p < src.cols * src.rows)
    (hopen : (open_basic src kernel).data.getD p 0 = 1) :
    src.data.getD p 0 = 1 := by
  have hkcpos : 0 < kernel.cols := by omega
  have hkrpos : 0 < kernel.rows := by omega
  have hcolspos : 0 < src.cols := by
    rcases Nat.eq_zero_or_pos src.cols with h | h
    · rw [h] at hp; simp at hp
    · exact h
  have hr : p / src.cols < src.rows := by
    rw [Nat.div_lt_iff_lt_mul hcolspos, Nat.mul_comm]
    exact hp
  have hc : p % src.cols < src.cols := Nat.mod_lt _ hcolspos
  have hpdecomp : p = (p / src.cols) * src.cols + p % src.cols := by
    rw [Nat.mul_comm]
    exact (Nat.div_add_mod p src.cols).symm
  have hec : src.cols = (erode_basic src kernel).cols := rfl
  have her : src.rows = (erode_basic src kernel).rows := rfl
  have hopen' : (dilate_basic (erode_basic src kernel) kernel).data.getD
      ((p / src.cols) * (erode_basic src kernel).cols + p % src.cols) 0 = 1 := by
    rw [← hec, ← hpdecomp]
    exact hopen
  rw [dilate_basic_getD (erode_basic src kernel) kernel hkc (p / src.cols)
    (p % src.cols) (her ▸ hr) (hec ▸ hc)] at hopen'
  rw [← hec, ← her] at hopen'
  split at hopen'
  case isFalse => exact absurd hopen' (by norm_num)
  case isTrue hC =>
  obtain ⟨m, hmK, hcond⟩ := hC
  rw [Bool.and_eq_true, Bool.and_eq_true] at hcond
  obtain ⟨⟨hinb, hker⟩, htarget⟩ := hcond
  rw [decide_eq_true_eq] at hker htarget
  rw [inImage, decide_eq_true_eq] at hinb
  obtain ⟨h1, h2, h3, h4⟩ := hinb
  set a : Nat := (((p / src.cols : Nat) : Int) + (((m / kernel.cols : Nat) : Int)
    - ((kernel.rows / 2 : Nat) : Int))).toNat with ha
  set b : Nat := (((p % src.cols : Nat) : Int) + (((m % kernel.cols : Nat) : Int)
    - ((kernel.cols / 2 : Nat) : Int))).toNat with hb
  have ha_lt : a < src.rows := by omega
  have hb_lt : b < src.cols := by omega
  have hidx : (((((p / src.cols : Nat) : Int) + (((m / kernel.cols : Nat) : Int)
        - ((kernel.rows / 2 : Nat) : Int))) * src.cols)
      + (((p % src.cols : Nat) : Int) + (((m % kernel.cols : Nat) : Int)
        - ((kernel.cols / 2 : Nat) : Int)))).toNat
      = a * src.cols + b := by
    have heq : ((((p / src.cols : Nat) : Int) + (((m / kernel.cols : Nat) : Int)
        - ((kernel.rows / 2 : Nat) : Int))) * src.cols)
        + (((p % src.cols : Nat) : Int) + (((m % kernel.cols : Nat) : Int)
          - ((kernel.cols / 2 : Nat) : Int)))
        = ((a * src.cols + b : Nat) : Int) := by
      rw [ha, hb, Nat.cast_add, Nat.cast_mul, Int.toNat_of_nonneg h1,
        Int.toNat_of_nonneg h3]
    rw [heq, Int.toNat_natCast]
  rw [hidx] at htarget
  rw [erode_basic_getD src kernel hkc a b ha_lt hb_lt] at htarget
  split at htarget
  case isTrue => exact absurd htarget (by norm_num)
  case isFalse hNo =>
  have hKK : kernel.cols * kernel.rows = kernel.rows * kernel.cols :=
    Nat.mul_comm _ _
  have hrev := revIndex_div_mod kernel.rows kernel.cols m (by omega) hkcpos
  have hm'eq : kernel.cols * kernel.rows - 1 - m
      = kernel.rows * kernel.cols - 1 - m := by omega
  have hdivlt : m / kernel.cols < kernel.rows := by
    rcases Nat.lt_or_ge (m / kernel.cols) kernel.rows with h | h
    · exact h
    · exfalso
      have p1 : kernel.rows * kernel.cols ≤ (m / kernel.cols) * kernel.cols :=
        Nat.mul_le_mul_right _ h
      have p2 : (m / kernel.cols) * kernel.cols ≤ m := Nat.div_mul_le_self m _
      omega
  have hmodlt : m % kernel.cols < kernel.cols := Nat.mod_lt _ hkcpos
  have hdiv' : (kernel.cols * kernel.rows - 1 - m) / kernel.cols
      = kernel.rows - 1 - m / kernel.cols := by
    rw [hm'eq]
    exact hrev.1
  have hmod' : (kernel.cols * kernel.rows - 1 - m) % kernel.cols
      = kernel.cols - 1 - m % kernel.cols := by
    rw [hm'eq]
    exact hrev.2
  have hker' : kernel.data.getD (kernel.cols * kernel.rows - 1 - m) 0 = 1 := by
    rw [← hsym m hmK]
    exact hker
  have hne0 : ¬ src.data.getD p 0 = 0 := by
    intro hsrc0
    apply hNo
    refine ⟨kernel.cols * kernel.rows - 1 - m, by omega, ?_⟩
    rw [Bool.and_eq_true, Bool.and_eq_true]
    refine ⟨⟨?_, ?_⟩, ?_⟩
    · rw [hdiv', hmod', inImage, decide_eq_true_eq]
      have hd0 : 0 ≤ ((p / src.cols : Nat) : Int) := Int.natCast_nonneg _
      have hd1 : 0 ≤ ((m / kernel.cols : Nat) : Int) := Int.natCast_nonneg _
      refine ⟨?_, ?_, ?_, ?_⟩ <;> omega
    · exact decide_eq_true hker'
    · rw [hdiv', hmod']
      have e1 : ((a : Nat) : Int)
          + (((kernel.rows - 1 - m / kernel.cols : Nat) : Int)
            - ((kernel.rows / 2 : Nat) : Int))
          = ((p / src.cols : Nat) : Int) := by omega
      have e2 : ((b : Nat) : Int)
          + (((kernel.cols - 1 - m % kernel.cols : Nat) : Int)
            - ((kernel.cols / 2 : Nat) : Int))
          = ((p % src.cols : Nat) : Int) := by omega
      rw [e1, e2]
      have e4 : ((p / src.cols : Nat) : Int) * src.cols
          + ((p % src.cols : Nat) : Int) = ((p : Nat) : Int) := by
        conv_rhs => rw [hpdecomp]
        push_cast
        ring
      rw [e4, Int.toNat_natCast]
      exact decide_eq_true hsrc0
  have := getD_le_one_of_binary src.data hbin p
  omega

/-- Witness for the amended opening claim: the 3x3 box kernel is odd-sized,
point-symmetric and binary; on the all-ones 3x3 binary image the opening
keeps the centre pixel, and the theorem instantiates there. -/
theorem open_symmetric_no_new_foreground_witness :
    kernelBox33.cols % 2 = 1 ∧ kernelBox33.rows % 2 = 1
    ∧ (∀ m, m < kernelBox33.cols * kernelBox33.rows →
        kernelBox33.data.getD m 0
          = kernelBox33.data.getD (kernelBox33.cols * kernelBox33.rows - 1 - m) 0)
    ∧ (∀ v ∈ imgOnes33.data, v ≤ 1)
    ∧ 4 < imgOnes33.cols * imgOnes33.rows
    ∧ imgOnes33.data.getD 4 0 = 1 :=
  ⟨by decide, by decide, by decide, by decide, by decide,
    open_symmetric_no_new_foreground imgOnes33 kernelBox33 (by decide) (by decide)
      (by decide) (by decide) 4 (by decide) (by decide)⟩

/-!
Counting helpers for the labelling analysis: `neighbourCount_basic` sums of
disjoint value classes against the plain in-bounds neighbour count, and the
comparison of that count with `expectedNeighbours`.
-/

/-- Counts of two disjoint predicates whose union is a third are summed
exactly to the count of the third. -/
theorem countP_add_eq {α : Type} (l : List α) (p q r : α → Bool)
    (h : ∀ x ∈ l, r x = (p x || q x) ∧ ¬(p x = true ∧ q x = true)) :
    l.countP p + l.countP q = l.countP r := by
  induction l with
  | nil => simp
  | cons a l ih =>
    have ha := h a (List.mem_cons_self a l)
    have hl := fun x hx => h x (List.mem_cons_of_mem a hx)
    simp only [List.countP_cons]
    have := ih hl
    rcases hp : p a <;> rcases hq : q a <;> rcases hr : r a <;>
      simp_all <;> omega

/-- Exhaustive description of the outcomes of one `processPixel` step. -/
theorem processPixel_spec (conn : eConnected) (rows cols : Nat) (useCap : Bool)
    (st : LabelState) (p : Nat) :
    processPixel conn rows cols useCap st p = st
    ∨ (st.data.getD p 0 = 255
        ∧ neighbourCount_basic st.data cols rows (p % cols) (p / cols) 0 conn
            + neighbourCount_basic st.data cols rows (p % cols) (p / cols) 255 conn
            = expectedNeighbours conn rows cols (p / cols) (p % cols)
        ∧ st.abort = false
        ∧ ((st.currentBlob = 255
              ∧ processPixel conn rows cols useCap st p = { st with abort := true })
          ∨ (st.currentBlob ≠ 255
              ∧ processPixel conn rows cols useCap st p
                  = { st with data := st.data.set p st.currentBlob
                              currentBlob := st.currentBlob + 1
                              changes := true })))
    ∨ (∃ j lim, 1 ≤ j ∧ j + 1 ≤ lim
        ∧ 0 < neighbourCount_basic st.data cols rows (p % cols) (p / cols) j conn
        ∧ st.abort = false
        ∧ processPixel conn rows cols useCap st p
            = { st with data := st.data.set p j, changes := true }
        ∧ ((st.data.getD p 0 = 255 ∧ lim = (if useCap then 255 else st.currentBlob))
          ∨ (1 < st.data.getD p 0 ∧ st.data.getD p 0 ≠ 255
              ∧ lim = st.data.getD p 0))) := by
  have hP : processPixel conn rows cols useCap st p
      = (if st.abort then st else
         if st.data.getD p 0 = 255 then
           if neighbourCount_basic st.data cols rows (p % cols) (p / cols) 0 conn
               + neighbourCount_basic st.data cols rows (p % cols) (p / cols) 255 conn
               = expectedNeighbours conn rows cols (p / cols) (p % cols) then
             if st.currentBlob = 255 then { st with abort := true }
             else { st with data := st.data.set p st.currentBlob
                            currentBlob := st.currentBlob + 1
                            changes := true }
           else
             match findLowestNbr st.data cols rows (p % cols) (p / cols) conn
                 (if useCap then 255 else st.currentBlob) with
             | some j => { st with data := st.data.set p j, changes := true }
             | none => st
         else if st.data.getD p 0 > 1 then
           match findLowestNbr st.data cols rows (p % cols) (p / cols) conn
               (st.data.getD p 0) with
           | some j => { st with data := st.data.set p j, changes := true }
           | none => st
         else st) := rfl
  rw [hP]
  by_cases habort : st.abort = true
  · rw [if_pos habort]
    exact Or.inl rfl
  rw [if_neg habort]
  have habf : st.abort = false := by
    simpa using habort
  by_cases h255 : st.data.getD p 0 = 255
  · rw [if_pos h255]
    by_cases hspawn : neighbourCount_basic st.data cols rows (p % cols) (p / cols) 0 conn
        + neighbourCount_basic st.data cols rows (p % cols) (p / cols) 255 conn
        = expectedNeighbours conn rows cols (p / cols) (p % cols)
    · rw [if_pos hspawn]
      by_cases hcb : st.currentBlob = 255
      · rw [if_pos hcb]
        exact Or.inr (Or.inl ⟨h255, hspawn, habf, Or.inl ⟨hcb, rfl⟩⟩)
      · rw [if_neg hcb]
        exact Or.inr (Or.inl ⟨h255, hspawn, habf, Or.inr ⟨hcb, rfl⟩⟩)
    · rw [if_neg hspawn]
      rcases hfind : findLowestNbr st.data cols rows (p % cols) (p / cols) conn
          (if useCap then 255 else st.currentBlob) with _ | j
      · simp only [hfind]
        exact Or.inl trivial
      · simp only [hfind]
        have hmem : j ∈ List.range' 1 ((if useCap then 255 else st.currentBlob) - 1) :=
          List.mem_of_find?_eq_some hfind
        have hpred := List.find?_some hfind
        rw [decide_eq_true_eq] at hpred
        rw [List.mem_range'_1] at hmem
        exact Or.inr (Or.inr ⟨j, (if useCap then 255 else st.currentBlob),
          by omega, by omega, hpred, habf, rfl, Or.inl ⟨h255, rfl⟩⟩)
  · rw [if_neg h255]
    by_cases hv1 : st.data.getD p 0 > 1
    · rw [if_pos hv1]
      rcases hfind : findLowestNbr st.data cols rows (p % cols) (p / cols) conn
          (st.data.getD p 0) with _ | j
      · simp only [hfind]
        exact Or.inl trivial
      · simp only [hfind]
        have hmem : j ∈ List.range' 1 (st.data.getD p 0 - 1) :=
          List.mem_of_find?_eq_some hfind
        have hpred := List.find?_some hfind
        rw [decide_eq_true_eq] at hpred
        rw [List.mem_range'_1] at hmem
        exact Or.inr (Or.inr ⟨j, st.data.getD p 0,
          by omega, by omega, hpred, habf, rfl, Or.inr ⟨hv1, h255, rfl⟩⟩)
    · rw [if_neg hv1]
      exact Or.inl rfl

/-- A `getD` read is the default or a member of the list. -/
theorem getD_zero_mem_or (data : List Nat) (idx : Nat) :
    data.getD idx 0 = 0 ∨ data.getD idx 0 ∈ data := by
  by_cases hidx : idx < data.length
  · rw [List.getD_eq_getElem data 0 hidx]
    exact Or.inr (List.getElem_mem hidx)
  · rw [List.getD_eq_default data 0 (by omega)]
    exact Or.inl rfl

/-!
Scaffolding: preservation of a state predicate through pixel folds, passes
and the `while(changes--)` loop, and extraction of the per-pixel fixed point
from a change-free iteration.
-/

/-- Preservation of a predicate through a fold of labelling steps. -/
theorem foldl_processPixel_pres (conn : eConnected) (rows cols : Nat)
    {P : LabelState → Prop}
    (hstep : ∀ (useCap : Bool) (st : LabelState) (q : Nat), q < rows * cols →
      P st → P (processPixel conn rows cols useCap st q)) (useCap : Bool) :
    ∀ (l : List Nat), (∀ x ∈ l, x < rows * cols) →
      ∀ st, P st → P (l.foldl (processPixel conn rows cols useCap) st) := by
  intro l
  induction l with
  | nil => intro _ st h; simpa using h
  | cons q l ih =>
    intro hl st h
    rw [List.foldl_cons]
    exact ih (fun x hx => hl x (List.mem_cons_of_mem q hx)) _
      (hstep useCap st q (hl q (List.mem_cons_self q l)) h)

/-- Preservation of a predicate through the labelling loop. -/
theorem labelLoop_pres (conn : eConnected) (rows cols : Nat)
    {P : LabelState → Prop}
    (hstep : ∀ (useCap : Bool) (st : LabelState) (q : Nat), q < rows * cols →
      P st → P (processPixel conn rows cols useCap st q))
    (hflag : ∀ st, P st → P { st with changes := false }) :
    ∀ (fuel : Nat) (st st' : LabelState),
      labelLoop conn rows cols fuel st = some st' → P st → P st' := by
  intro fuel
  induction fuel with
  | zero => intro st st' h; simp [labelLoop] at h
  | succ fuel ih =>
    intro st st' h hP
    simp only [labelLoop] at h
    have hP1 : P (passBwd conn rows cols
        (passFwd conn rows cols { st with changes := false })) := by
      have h0 : P { st with changes := false } := hflag st hP
      have h1 : P (passFwd conn rows cols { st with changes := false }) := by
        unfold passFwd
        exact foldl_processPixel_pres conn rows cols hstep false _
          (fun x hx => List.mem_range.mp hx) _ h0
      unfold passBwd
      exact foldl_processPixel_pres conn rows cols hstep true _
        (fun x hx => List.mem_range.mp (List.mem_reverse.mp hx)) _ h1
    by_cases hab : (passBwd conn rows cols
        (passFwd conn rows cols { st with changes := false })).abort = true
    · rw [if_pos hab] at h
      obtain rfl : _ = st' := Option.some.inj h
      exact hP1
    · rw [if_neg hab] at h
      by_cases hch : (passBwd conn rows cols
          (passFwd conn rows cols { st with changes := false })).changes = true
      · rw [if_pos hch] at h
        exact ih _ st' h hP1
      · rw [if_neg hch] at h
        obtain rfl : _ = st' := Option.some.inj h
        exact hP1

/-- Counter bounds, buffer length bound, and a live label witness once the
counter moved. -/
def Rinv (rows cols : Nat) (st : LabelState) : Prop :=
  1 ≤ st.currentBlob ∧ st.currentBlob ≤ 255 ∧ st.data.length ≤ rows * cols
  ∧ (1 < st.currentBlob → ∃ v ∈ st.data, 1 ≤ v ∧ v ≤ 254)

/-- The all-background state: no label assigned, all samples 0. -/
def Zeroinv (st : LabelState) : Prop :=
  st.currentBlob = 1 ∧ ∀ v ∈ st.data, v = 0

/-- One labelling step preserves `Rinv`. -/
theorem Rinv_step (conn : eConnected) (rows cols : Nat) (useCap : Bool)
    (st : LabelState) (q : Nat) (hq : q < rows * cols)
    (hR : Rinv rows cols st) :
    Rinv rows cols (processPixel conn rows cols useCap st q) := by
  obtain ⟨hcb1, hcb255, hlen, hlab⟩ := hR
  rcases processPixel_spec conn rows cols useCap st q with
    heq | ⟨h255, hsp, habf, ⟨hcb, heq⟩ | ⟨hcb, heq⟩⟩
      | ⟨j, lim, hj1, hjlim, hjcnt, habf, heq, hcase⟩
  · rw [heq]; exact ⟨hcb1, hcb255, hlen, hlab⟩
  · rw [heq]; exact ⟨hcb1, hcb255, hlen, hlab⟩
  · rw [heq]
    have hp : q < st.data.length := by
      by_contra hge
      rw [List.getD_eq_default st.data 0 (by omega)] at h255
      omega
    have hql : q < (st.data.set q st.currentBlob).length := by
      rw [List.length_set]; exact hp
    have hmem := List.getElem_mem hql
    rw [List.getElem_set_self] at hmem
    refine ⟨?_, ?_, ?_, ?_⟩
    · show 1 ≤ st.currentBlob + 1
      omega
    · show st.currentBlob + 1 ≤ 255
      omega
    · show (st.data.set q st.currentBlob).length ≤ rows * cols
      rw [List.length_set]
      exact hlen
    · intro _
      exact ⟨st.currentBlob, hmem, by omega, by omega⟩
  · rw [heq]
    have hp : q < st.data.length := by
      by_contra hge
      rcases hcase with ⟨hv, _⟩ | ⟨hv, _, _⟩ <;>
        rw [List.getD_eq_default st.data 0 (by omega)] at hv <;> omega
    have hql : q < (st.data.set q j).length := by
      rw [List.length_set]; exact hp
    have hjmem := List.getElem_mem hql
    rw [List.getElem_set_self] at hjmem
    refine ⟨hcb1, hcb255, ?_, ?_⟩
    · show (st.data.set q j).length ≤ rows * cols
      rw [List.length_set]
      exact hlen
    · intro hgt
      rcases hcase with ⟨hv255, hlim⟩ | ⟨hv1, hvne, hlim⟩
      · have hlim255 : lim ≤ 255 := by
          rcases useCap <;> simp at hlim <;> omega
        exact ⟨j, hjmem, by omega, by omega⟩
      · obtain ⟨w, hwmem, hw1, hw254⟩ := hlab hgt
        obtain ⟨idx, hidxlt, hidxval⟩ := List.getElem_of_mem hwmem
        by_cases hiq : idx = q
        · subst hiq
          have hvw : st.data.getD idx 0 = w := by
            rw [List.getD_eq_getElem st.data 0 hidxlt]
            exact hidxval
          rw [hlim, hvw] at hjlim
          exact ⟨j, hjmem, by omega, by omega⟩
        · have hql2 : idx < (st.data.set q j).length := by
            rw [List.length_set]; exact hidxlt
          have hwmem2 := List.getElem_mem hql2
          rw [List.getElem_set_ne (fun h => hiq h.symm)] at hwmem2
          rw [hidxval] at hwmem2
          exact ⟨w, hwmem2, hw1, hw254⟩

/-- One labelling step fixes an all-background state. -/
theorem Zeroinv_step (conn : eConnected) (rows cols : Nat) (useCap : Bool)
    (st : LabelState) (q : Nat) (hq : q < rows * cols) (hZ : Zeroinv st) :
    Zeroinv (processPixel conn rows cols useCap st q) := by
  obtain ⟨hcb, hz⟩ := hZ
  have hv : st.data.getD q 0 = 0 := by
    rcases getD_zero_mem_or st.data q with h | h
    · exact h
    · exact hz _ h
  rcases processPixel_spec conn rows cols useCap st q with
    heq | ⟨h255, _⟩ | ⟨j, lim, _, _, _, _, _, hcase⟩
  · rw [heq]; exact ⟨hcb, hz⟩
  · omega
  · rcases hcase with ⟨hv255, _⟩ | ⟨hv1, _, _⟩ <;> omega

/-- The initial labelling state satisfies `Rinv`. -/
theorem init_Rinv (src : image_t) :
    Rinv src.rows src.cols
      { data := setSelectedToValue_basic src.pix 1 255
        currentBlob := 1, changes := true, abort := false } := by
  refine ⟨?_, ?_, ?_, ?_⟩
  · show (1 : Nat) ≤ 1
    omega
  · show (1 : Nat) ≤ 255
    omega
  · show (setSelectedToValue_basic src.pix 1 255).length ≤ src.rows * src.cols
    simp only [setSelectedToValue_basic, List.length_map, image_t.pix,
      List.length_take]
    exact min_le_left _ _
  · intro h
    exact absurd (show (1 : Nat) < 1 from h) (by omega)

/-- The initial labelling state of an all-background image satisfies
`Zeroinv`. -/
theorem init_Zeroinv (src : image_t) (hz : ∀ v ∈ src.data, v = 0) :
    Zeroinv { data := setSelectedToValue_basic src.pix 1 255
              currentBlob := 1, changes := true, abort := false } := by
  refine ⟨rfl, ?_⟩
  intro v hv
  simp only [setSelectedToValue_basic, List.mem_map] at hv
  obtain ⟨w, hw, rfl⟩ := hv
  have hw0 : w = 0 := by
    apply hz
    simp only [image_t.pix] at hw
    exact List.mem_of_mem_take hw
  rw [if_neg (by omega)]
  exact hw0

/-!
The compaction epilogue: `histList` counts occurrences (`uint16` bins stay
exact while the buffer holds fewer than 65536 samples), and the
`for(i = 1; i < 255; ...)` remap sends the i-th occupied label to its rank
among occupied labels.
-/

/-- A fold of capped bin increments, evaluated at one bin. -/
theorem histList_aux :
    ∀ (l : List Nat) (f : Nat → Nat) (v : Nat), f v < 65536 →
      (l.foldl (fun h w => Function.update h w ((h w + 1) % 65536)) f) v
        = (f v + l.count v) % 65536 := by
  intro l
  induction l with
  | nil =>
    intro f v hf
    simp only [List.foldl_nil, List.count_nil]
    omega
  | cons w l ih =>
    intro f v hf
    rw [List.foldl_cons]
    by_cases hwv : w = v
    · subst hwv
      rw [ih _ _ (by rw [Function.update_same]; exact Nat.mod_lt _ (by omega))]
      rw [Function.update_same, List.count_cons_self]
      omega
    · rw [ih _ _ (by rw [Function.update_noteq (fun h => hwv h.symm)]; exact hf)]
      rw [Function.update_noteq (fun h => hwv h.symm),
        List.count_cons_of_ne (fun h => hwv h.symm)]

/-- On buffers shorter than 65536 samples the histogram is the exact
occurrence count. -/
theorem histList_eq_count (l : List Nat) (hlen : l.length < 65536) (v : Nat) :
    histList l v = l.count v := by
  unfold histList
  rw [histList_aux l (fun _ => 0) v (by show (0 : Nat) < 65536; omega)]
  have := List.count_le_length v l
  omega

/-- The compacted count never exceeds 254 (one increment per bin). -/
theorem compactLabels_count_le (data : List Nat) :
    (compactLabels data).2 ≤ 254 := by
  have haux : ∀ (l : List Nat) (acc : List Nat × Nat),
      ((l.foldl (fun acc i => if histList data i > 0 then
          (setSelectedToValue_basic acc.1 i (acc.2 + 1), acc.2 + 1)
        else acc) acc)).2 ≤ acc.2 + l.length := by
    intro l
    induction l with
    | nil => intro acc; simp
    | cons a l ih =>
      intro acc
      rw [List.foldl_cons]
      by_cases h : histList data a > 0
      · rw [if_pos h]
        have hrec := ih (setSelectedToValue_basic acc.1 a (acc.2 + 1), acc.2 + 1)
        dsimp only at hrec
        simp only [List.length_cons]
        omega
      · rw [if_neg h]
        have hrec := ih acc
        simp only [List.length_cons]
        omega
  have hmain := haux (List.range' 1 254) (data, 0)
  have heq : (compactLabels data).2
      = ((List.range' 1 254).foldl (fun acc i => if histList data i > 0 then
          (setSelectedToValue_basic acc.1 i (acc.2 + 1), acc.2 + 1)
        else acc) (data, 0)).2 := rfl
  rw [heq]
  simpa [List.length_range'] using hmain

/-- The compacted count is monotone along the fold. -/
theorem compact_fold_count_mono (data : List Nat) :
    ∀ (l : List Nat) (acc : List Nat × Nat),
      acc.2 ≤ (l.foldl (fun acc i => if histList data i > 0 then
          (setSelectedToValue_basic acc.1 i (acc.2 + 1), acc.2 + 1)
        else acc) acc).2 := by
  intro l
  induction l with
  | nil => intro acc; simp
  | cons a l ih =>
    intro acc
    rw [List.foldl_cons]
    by_cases h : histList data a > 0
    · rw [if_pos h]
      have hrec := ih (setSelectedToValue_basic acc.1 a (acc.2 + 1), acc.2 + 1)
      dsimp only at hrec
      omega
    · rw [if_neg h]
      exact ih acc

/-- An occupied bin in `1..254` forces a positive compacted count. -/
theorem compactLabels_count_pos (data : List Nat) (v : Nat)
    (hv1 : 1 ≤ v) (hv254 : v ≤ 254) (hocc : 0 < histList data v) :
    1 ≤ (compactLabels data).2 := by
  have haux : ∀ (l : List Nat) (acc : List Nat × Nat), v ∈ l →
      acc.2 + 1 ≤ (l.foldl (fun acc i => if histList data i > 0 then
          (setSelectedToValue_basic acc.1 i (acc.2 + 1), acc.2 + 1)
        else acc) acc).2 := by
    intro l
    induction l with
    | nil => intro acc hmem; exact absurd hmem (List.not_mem_nil v)
    | cons a l ih =>
      intro acc hmem
      rw [List.foldl_cons]
      rcases List.mem_cons.mp hmem with rfl | hmem'
      · rw [if_pos (show histList data v > 0 from hocc)]
        have hrec := compact_fold_count_mono data l
          (setSelectedToValue_basic acc.1 v (acc.2 + 1), acc.2 + 1)
        dsimp only at hrec
        omega
      · by_cases h : histList data a > 0
        · rw [if_pos h]
          have hrec := ih (setSelectedToValue_basic acc.1 a (acc.2 + 1), acc.2 + 1)
            hmem'
          dsimp only at hrec
          omega
        · rw [if_neg h]
          exact ih acc hmem'
  have hmain := haux (List.range' 1 254) (data, 0)
    (by rw [List.mem_range'_1]; omega)
  have heq : (compactLabels data).2
      = ((List.range' 1 254).foldl (fun acc i => if histList data i > 0 then
          (setSelectedToValue_basic acc.1 i (acc.2 + 1), acc.2 + 1)
        else acc) (data, 0)).2 := rfl
  rw [heq]
  omega

/-- Claim C3 (amended): on images holding fewer than 65536 samples,
`labelBlobs` returns 0 exactly when the run aborted on label overflow or
assigned no intermediate label at all (`currentBlob` still 1) — in
particular on every all-background image — and the returned count never
exceeds 254.  (The original claim's promise of a positive count for every
image with 1..254 blobs fails: on one-row or one-column images the
new-blob rule never fires, see the counterexample theorem.) -/
theorem labelBlobs_zero_iff_no_label (src : image_t) (conn : eConnected)
    (fuel : Nat) (out : image_t) (n : Nat)
    (hsize : src.rows * src.cols < 65536)
    (hrun : labelBlobs_basic src conn fuel = some (out, n)) :
    n ≤ 254
    ∧ ((∀ v ∈ src.data, v = 0) → n = 0)
    ∧ (∀ st, labelBlobsFull src conn fuel = some st →
        ((st.abort = true ∨ st.currentBlob = 1) ↔ n = 0)) := by
  rcases hfull : labelBlobsFull src conn fuel with _ | st0
  · simp [labelBlobs_basic, hfull] at hrun
  · simp only [labelBlobs_basic, hfull, Option.map_some'] at hrun
    rw [Option.some.injEq] at hrun
    have hR : Rinv src.rows src.cols st0 := by
      unfold labelBlobsFull at hfull
      exact labelLoop_pres conn src.rows src.cols
        (fun useCap st q hq h => Rinv_step conn src.rows src.cols useCap st q hq h)
        (fun st h => h) fuel _ st0 hfull (init_Rinv src)
    by_cases hab : st0.abort = true
    · rw [if_pos hab] at hrun
      rw [Prod.mk.injEq] at hrun
      have hn : n = 0 := hrun.2.symm
      refine ⟨by omega, fun _ => hn, ?_⟩
      intro st hst
      obtain rfl := Option.some.inj hst
      exact ⟨fun _ => hn, fun _ => Or.inl hab⟩
    · by_cases hcb1 : st0.currentBlob = 1
      · rw [if_neg hab, if_pos hcb1] at hrun
        rw [Prod.mk.injEq] at hrun
        have hn : n = 0 := hrun.2.symm
        refine ⟨by omega, fun _ => hn, ?_⟩
        intro st hst
        obtain rfl := Option.some.inj hst
        exact ⟨fun _ => hn, fun _ => Or.inr hcb1⟩
      · rw [if_neg hab, if_neg hcb1] at hrun
        rw [Prod.mk.injEq] at hrun
        have hn : n = (compactLabels st0.data).2 := hrun.2.symm
        obtain ⟨hcb1le, hcb255, hlen, hlab⟩ := hR
        have hgt : 1 < st0.currentBlob := by omega
        obtain ⟨v, hvmem, hv1, hv254⟩ := hlab hgt
        have hpos : 1 ≤ (compactLabels st0.data).2 := by
          apply compactLabels_count_pos st0.data v hv1 hv254
          rw [histList_eq_count st0.data (by omega) v]
          exact List.count_pos_iff.mpr hvmem
        refine ⟨by rw [hn]; exact compactLabels_count_le st0.data, ?_, ?_⟩
        · intro hz
          exfalso
          have hZ : Zeroinv st0 := by
            unfold labelBlobsFull at hfull
            exact labelLoop_pres conn src.rows src.cols
              (fun useCap st q hq h =>
                Zeroinv_step conn src.rows src.cols useCap st q hq h)
              (fun st h => ⟨h.1, h.2⟩) fuel _ st0 hfull (init_Zeroinv src hz)
          exact hcb1 hZ.1
        · intro st hst
          obtain rfl := Option.some.inj hst
          constructor
          · rintro (h | h)
            · exact absurd h hab
            · exact absurd h hcb1
          · intro h0
            exfalso
            rw [hn] at h0
            omega

/-- Witness: on the all-ones 2x2 image with 8-connectivity the run settles
to a single blob and the characterization instantiates with count 1. -/
theorem labelBlobs_zero_iff_no_label_witness :
    imgOnes22.rows * imgOnes22.cols < 65536
    ∧ labelBlobs_basic imgOnes22 .EIGHT 9
        = some ({ cols := 2, rows := 2, view := .LABELED, data := [1, 1, 1, 1] }, 1)
    ∧ (1 ≤ 254
      ∧ ((∀ v ∈ imgOnes22.data, v = 0) → 1 = 0)
      ∧ (∀ st, labelBlobsFull imgOnes22 .EIGHT 9 = some st →
          ((st.abort = true ∨ st.currentBlob = 1) ↔ 1 = 0))) :=
  ⟨by decide, by decide,
    labelBlobs_zero_iff_no_label imgOnes22 .EIGHT 9
      { cols := 2, rows := 2, view := .LABELED, data := [1, 1, 1, 1] } 1
      (by decide) (by decide)⟩

